import Mathlib

/-!
# gravitree: numeric core (`src/fast.cpp`)

Shallow embedding of the four exported routines of `src/fast.cpp`

* `wcov`        (weighted center and covariance),
* `eigen`       (symmetric eigendecomposition, reordered),
* `Mahalanobis` (squared Mahalanobis distances),
* `as_dist`     (strict lower triangle of a matrix as a flat vector),

together with theorems relating them to the specification.

Modelling conventions.

* `double` arithmetic is modelled by exact arithmetic in a field `K`; rounding and the
  non-finite values of IEEE arithmetic are outside the model.
* Dense Eigen matrices of run-time shape `n × p` are `Matrix (Fin n) (Fin p) K`.
* Routines of the Eigen library that the source only calls (`cwiseSqrt`, `inverse`,
  `SelfAdjointEigenSolver`) are arguments of the embedded functions; the theorems assume
  their documented contracts where they need them.
* C `int` values are integers; the one product that can leave the 32-bit range is wrapped
  explicitly (`wrapInt32`). Reads and writes outside of a vector or matrix end the modelled
  call with a `Fault`.
-/

open scoped BigOperators

namespace Gravitree

/-! ## Eigen expression helpers -/

section EigenOps

variable {K : Type*}

/-- The expression `v.reverse()` on a vector: entry `i` is entry `p-1-i` of `v`. -/
def reverse {p : Nat} (v : Fin p → K) : Fin p → K :=
  fun i => v (Fin.rev i)

/-- The expression `m.colwise().reverse()`: every column is reversed, that is the rows appear in
reverse order, entry `(i, j)` is entry `(r-1-i, j)` of `m`. -/
def colwiseReverse {r c : Nat} (m : Matrix (Fin r) (Fin c) K) : Matrix (Fin r) (Fin c) K :=
  fun i j => m (Fin.rev i) j

/-- The expression `m.rowwise() - v.transpose()`: `v` is subtracted from every row of `m`. -/
def rowwiseSub [Sub K] {n p : Nat} (m : Matrix (Fin n) (Fin p) K) (v : Fin p → K) :
    Matrix (Fin n) (Fin p) K :=
  fun i k => m i k - v k

/-- The expression `m.rowwise().sum()`: an `n × 1` matrix holding the sum of each row. -/
def rowwiseSum [AddCommMonoid K] {n p : Nat} (m : Matrix (Fin n) (Fin p) K) :
    Matrix (Fin n) (Fin 1) K :=
  fun i _ => ∑ k, m i k

/-- The coefficient-wise product `a.array() * b.array()`. -/
def cwiseProduct [Mul K] {n p : Nat} (a b : Matrix (Fin n) (Fin p) K) :
    Matrix (Fin n) (Fin p) K :=
  fun i k => a i k * b i k

/-- The update `m.selfadjointView<Lower>().rankUpdate(u)`: `u * uᵀ` is added to the lower
triangle (diagonal included) of `m`; the strict upper triangle of `m` is not touched. -/
def rankUpdateLower [Semiring K] {p n : Nat} (m : Matrix (Fin p) (Fin p) K)
    (u : Matrix (Fin p) (Fin n) K) : Matrix (Fin p) (Fin p) K :=
  fun k l => if l ≤ k then m k l + ∑ i, u k i * u l i else m k l

/-- Evaluation of a `selfadjointView<Lower>` into a dense matrix: the lower triangle is copied
and mirrored into the strict upper triangle. -/
def selfadjointLowerToDense {p : Nat} (m : Matrix (Fin p) (Fin p) K) :
    Matrix (Fin p) (Fin p) K :=
  fun k l => if l ≤ k then m k l else m l k

end EigenOps

/-! ## `wcov` -/

/-- The list returned by `wcov`: components `center` and `cov`. -/
structure Moments (p : Nat) (K : Type*) where
  center : Fin p → K
  cov : Matrix (Fin p) (Fin p) K

/-- Source function `wcov` (`fast.cpp`, lines 31-48). The argument `sqrt` is the scalar square
root applied coefficient-wise by `cwiseSqrt`. -/
def wcov {K : Type*} [Field K] {n p : Nat} (sqrt : K → K)
    (x : Matrix (Fin n) (Fin p) K) (w : Fin n → K) : Moments p K :=
  let ws : K := ∑ i, w i
  let center : Fin p → K := fun k => (∑ i, x i k * w i) / ws
  let sqw : Fin n → K := fun i => sqrt (w i / ws)
  let X : Matrix (Fin n) (Fin p) K := rowwiseSub x center
  let cov : Matrix (Fin p) (Fin p) K :=
    selfadjointLowerToDense (rankUpdateLower 0 (X.transpose * Matrix.diagonal sqw))
  { center := center, cov := cov }

/-! ## `eigen` -/

/-- The state of an `Eigen::SelfAdjointEigenSolver` after construction: what its accessors
`eigenvalues()` and `eigenvectors()` return. Column `k` of `eigenvectors` is the eigenvector
the solver pairs with `eigenvalues k`. -/
structure SelfAdjointEigenSolver (p : Nat) (K : Type*) where
  eigenvalues : Fin p → K
  eigenvectors : Matrix (Fin p) (Fin p) K

/-- The list returned by `eigen`: components `values` and `vectors`. -/
structure Spectrum (p : Nat) (K : Type*) where
  values : Fin p → K
  vectors : Matrix (Fin p) (Fin p) K

/-- Source function `eigen` (`fast.cpp`, lines 51-58). The argument `solver` is the library
constructor `SelfAdjointEigenSolver<MatrixXd>(cov)`; `.real()` is the identity on real
matrices. -/
def eigen {K : Type*} [Neg K] {p : Nat}
    (solver : Matrix (Fin p) (Fin p) K → SelfAdjointEigenSolver p K)
    (cov : Matrix (Fin p) (Fin p) K) : Spectrum p K :=
  let eigensolver := solver cov
  { values := reverse eigensolver.eigenvalues
    vectors := -(colwiseReverse eigensolver.eigenvectors).transpose }

/-- Documented contract of the library solver on the input `cov`: the eigenvalues are sorted in
increasing order, column `k` of the eigenvector matrix is an eigenvector of `cov` for eigenvalue
`k`, and the eigenvector columns are orthonormal. -/
def SolverContract {K : Type*} [LinearOrderedField K] {p : Nat}
    (cov : Matrix (Fin p) (Fin p) K) (es : SelfAdjointEigenSolver p K) : Prop :=
  (∀ i j : Fin p, i ≤ j → es.eigenvalues i ≤ es.eigenvalues j) ∧
  (∀ k : Fin p, cov.mulVec (fun i => es.eigenvectors i k)
      = es.eigenvalues k • (fun i => es.eigenvectors i k)) ∧
  es.eigenvectors.transpose * es.eigenvectors = 1

instance {K : Type*} [LinearOrderedField K] {p : Nat}
    (cov : Matrix (Fin p) (Fin p) K) (es : SelfAdjointEigenSolver p K) :
    Decidable (SolverContract cov es) := by
  unfold SolverContract
  infer_instance

/-! ## `Mahalanobis` -/

/-- Exact inverse by the cofactor formula `adj(A) / det(A)`. It is the value of the library
routine `inverse()` on every invertible matrix in exact arithmetic. -/
def cofactorInverse {K : Type*} [Field K] {p : Nat} (A : Matrix (Fin p) (Fin p) K) :
    Matrix (Fin p) (Fin p) K :=
  (A.det)⁻¹ • A.adjugate

/-- Documented contract of the library routine `inverse()`: on an invertible matrix it returns
the inverse. The library leaves the result on a singular matrix undefined. -/
def InverseContract {K : Type*} [Field K] {p : Nat}
    (inverse : Matrix (Fin p) (Fin p) K → Matrix (Fin p) (Fin p) K) : Prop :=
  ∀ A : Matrix (Fin p) (Fin p) K, IsUnit A.det → A * inverse A = 1

/-- Source function `Mahalanobis` (`fast.cpp`, lines 90-96). The argument `inverse` is the
library routine `cov.inverse()`. The result is the `n × 1` matrix of row sums. -/
def Mahalanobis {K : Type*} [Field K] {n p : Nat}
    (inverse : Matrix (Fin p) (Fin p) K → Matrix (Fin p) (Fin p) K)
    (x : Matrix (Fin n) (Fin p) K) (center : Fin p → K) (cov : Matrix (Fin p) (Fin p) K) :
    Matrix (Fin n) (Fin 1) K :=
  let cx : Matrix (Fin n) (Fin p) K := rowwiseSub x center
  let out : Matrix (Fin n) (Fin p) K := cwiseProduct (cx * inverse cov) cx
  rowwiseSum out

/-- The coefficients of a dense matrix in storage order (column-major, the default of Eigen and
the layout of an R matrix). -/
def coefficients {K : Type*} {r c : Nat} (m : Matrix (Fin r) (Fin c) K) : List K :=
  (List.finRange c).flatMap fun j => (List.finRange r).map fun i => m i j

/-! ## Error reporting -/

/-- The error kinds named by the specification. -/
inductive NumericError
  | InvalidWeights
  | DimensionMismatch
  | SingularCovariance
  deriving DecidableEq, Repr

/-- Outcome of a call of the exported `wcov`. The body of the source function contains no
`throw`, no `Rcpp::stop` and no test of `w` or of `ws`: every statement is executed and the
list is returned. -/
def wcov_call {K : Type*} [Field K] {n p : Nat} (sqrt : K → K)
    (x : Matrix (Fin n) (Fin p) K) (w : Fin n → K) : Except NumericError (Moments p K) :=
  Except.ok (wcov sqrt x w)

/-- Outcome of a call of the exported `Mahalanobis`. The body of the source function contains no
`throw`, no `Rcpp::stop` and no test of `cov` or of its inverse: every statement is executed and
the matrix of row sums is returned. -/
def Mahalanobis_call {K : Type*} [Field K] {n p : Nat}
    (inverse : Matrix (Fin p) (Fin p) K → Matrix (Fin p) (Fin p) K)
    (x : Matrix (Fin n) (Fin p) K) (center : Fin p → K) (cov : Matrix (Fin p) (Fin p) K) :
    Except NumericError (Matrix (Fin n) (Fin 1) K) :=
  Except.ok (Mahalanobis inverse x center cov)

/-- What a call does, as far as the source determines it: it returns a value, or it proceeds
on inconsistent operands with a result the library leaves unspecified, or it raises an error of
the taxonomy. -/
inductive Outcome (α : Type*)
  | value (a : α)
  | unspecified
  | raised (e : NumericError)

/-- Outcome of a call of the exported `wcov` with `m` weights for `n` observations. The source
never compares `w.size()` with `x.rows()` and never raises; the size checks inside the Eigen
expressions are assertions, compiled out of a package build. With `m = n` the call is `wcov`;
with `m ≠ n` the expressions are evaluated on operands of inconsistent sizes. -/
def wcov_sized {K : Type*} [Field K] {n m p : Nat} (sqrt : K → K)
    (x : Matrix (Fin n) (Fin p) K) (w : Fin m → K) : Outcome (Moments p K) :=
  if h : m = n then Outcome.value (wcov sqrt x fun i => w (Fin.cast h.symm i))
  else Outcome.unspecified

/-! ## `as_dist` -/

/-- Value of a C `int` expression whose mathematical value is `z`, under the two's-complement
wrap-around that compilers emit for 32-bit signed arithmetic (the C++ standard leaves signed
overflow undefined). It is the identity on `-2^31 ≤ z < 2^31`. -/
def wrapInt32 (z : Int) : Int :=
  (z + 2147483648) % 4294967296 - 2147483648

/-- The ways a call of `as_dist` can go wrong at run time: the allocator of R rejects a negative
length, and an access outside of a vector or matrix, which the source does not check and which
is undefined behaviour, ends the modelled call. -/
inductive Fault
  | negativeLength
  | outOfBounds
  deriving DecidableEq, Repr

/-- The vector returned by `as_dist`: the data and the attributes `Size`, `Diag`, `Upper`
(the attribute `class` is the constant string `dist`). -/
structure Dist (α : Type*) where
  data : List α
  Size : Nat
  Diag : Bool
  Upper : Bool

/-- The statement `int size = nrow * (nrow - 1) / 2;`: the product is formed in `int`, the
division is the truncating division of C. -/
def as_dist_size (nrow : Nat) : Int :=
  Int.tdiv (wrapInt32 ((nrow : Int) * ((nrow : Int) - 1))) 2

/-- The constructor `Rcpp::NumericVector out(size)`: a zero-filled vector of `size` entries; the
allocator of R rejects a negative length with an error. -/
def allocVector (α : Type*) [Zero α] (size : Int) : Except Fault (List α) :=
  if size < 0 then Except.error Fault.negativeLength
  else Except.ok (List.replicate size.toNat 0)

/-- The read `mat(i,j)`, meaningful for `i < nrow` and `j < ncol` only. -/
def readCell {α : Type*} {nrow ncol : Nat} (mat : Matrix (Fin nrow) (Fin ncol) α)
    (i j : Nat) : Except Fault α :=
  if h : i < nrow ∧ j < ncol then Except.ok (mat ⟨i, h.1⟩ ⟨j, h.2⟩)
  else Except.error Fault.outOfBounds

/-- The statement `out[k++] = v` on the pair `(out, k)`, meaningful for `k` below the length of
`out` only. -/
def writeNext {α : Type*} (st : List α × Nat) (v : α) : Except Fault (List α × Nat) :=
  if st.2 < st.1.length then Except.ok (st.1.set st.2 v, st.2 + 1)
  else Except.error Fault.outOfBounds

/-- The inner loop `for (int i = j + 1; i < nrow; i++) out[k++] = mat(i,j);`. -/
def as_dist_inner {α : Type*} {nrow ncol : Nat} (mat : Matrix (Fin nrow) (Fin ncol) α)
    (j : Nat) (st : List α × Nat) : Except Fault (List α × Nat) :=
  (List.range' (j + 1) (nrow - (j + 1))).foldlM
    (fun st i => do
      let v ← readCell mat i j
      writeNext st v) st

/-- The outer loop `for (int j = 0; j < ncol; j++)` around the inner loop. -/
def as_dist_loop {α : Type*} {nrow ncol : Nat} (mat : Matrix (Fin nrow) (Fin ncol) α)
    (st : List α × Nat) : Except Fault (List α × Nat) :=
  (List.range ncol).foldlM (fun st j => as_dist_inner mat j st) st

/-- Source function `as_dist` (`fast.cpp`, lines 99-119). -/
def as_dist {α : Type*} [Zero α] {nrow ncol : Nat} (mat : Matrix (Fin nrow) (Fin ncol) α) :
    Except Fault (Dist α) := do
  let size := as_dist_size nrow
  let out ← allocVector α size
  let st ← if 1 < nrow then as_dist_loop mat (out, 0) else pure (out, 0)
  pure { data := st.1, Size := nrow, Diag := false, Upper := false }

/-- The strict lower triangle of a square matrix read column by column: for each column `j` in
increasing order, the entries `m i j` with `j < i` in increasing order of `i`. -/
def lowerTriangleColumnMajor {α : Type*} {n : Nat} (m : Matrix (Fin n) (Fin n) α) : List α :=
  (List.finRange n).flatMap fun j =>
    ((List.finRange n).filter fun i => j < i).map fun i => m i j

/-- The linear offset the specification assigns to the cell `(i, j)`, `j < i < n`. -/
def triOffset (n i j : Nat) : Nat :=
  j * n - j * (j + 1) / 2 + (i - j - 1)

/-! ## Auxiliary definitions for `as_dist` -/

/-- The value read at the cell `c = (i, j)`, and `0` outside of the matrix. -/
def cellOr {α : Type*} [Zero α] {nrow ncol : Nat} (mat : Matrix (Fin nrow) (Fin ncol) α)
    (c : Nat × Nat) : α :=
  if h : c.1 < nrow ∧ c.2 < ncol then mat ⟨c.1, h.1⟩ ⟨c.2, h.2⟩ else 0

/-- The cells `(i, j)` visited by the two loops of `as_dist`, in the order of the visits. -/
def as_dist_cells (nrow ncol : Nat) : List (Nat × Nat) :=
  (List.range ncol).flatMap fun j => (List.range' (j + 1) (nrow - (j + 1))).map fun i => (i, j)

/-- The cell stored at offset `o` of the output for an `n × n` input, read off the order of the
visits; it depends on `n` and `o` only. -/
def triDecode (n o : Nat) : Nat × Nat :=
  (as_dist_cells n n).getD o (0, 0)

/-- A symmetric `3 × 3` matrix of pairwise distances with `m[1,0] = 5`, `m[2,0] = 7` and
`m[2,1] = 3`. -/
def dist3 : Matrix (Fin 3) (Fin 3) ℚ :=
  !![0, 5, 7; 5, 0, 3; 7, 3, 0]

/-- Number of cells visited before column `j`: the sum of `nrow - (t + 1)` over `t < j`. -/
def colStart (nrow j : Nat) : Nat :=
  ((List.range j).map fun t => nrow - (t + 1)).sum

/-! ## Concrete inputs used by the theorems below -/

/-- A symmetric `3 × 3` matrix with the three distinct eigenvalues `81 < 162 < 243`; the
eigenvectors are `(1, 4, 8)`, `(-8, 4, -1)` and `(4, 7, -4)`. -/
def cov3 : Matrix (Fin 3) (Fin 3) ℚ :=
  !![177, 24, -24; 24, 195, -60; -24, -60, 114]

/-- A sign `+1` or `-1`. -/
def sign (b : Bool) : ℚ := if b then 1 else -1

/-- The eigendecompositions of `cov3` with unit eigenvectors: the eigenvalues are distinct, so
each unit eigenvector is determined up to its sign, and the three signs `a`, `b`, `c` enumerate
every answer a solver can give. -/
def solved3 (a b c : Bool) : SelfAdjointEigenSolver 3 ℚ where
  eigenvalues := ![81, 162, 243]
  eigenvectors :=
    !![sign a * (1 / 9), sign b * (-8 / 9), sign c * (4 / 9);
       sign a * (4 / 9), sign b * (4 / 9), sign c * (7 / 9);
       sign a * (8 / 9), sign b * (-1 / 9), sign c * (-4 / 9)]

/-! # Theorems -/

/-! ## `wcov`: center and covariance -/

section WcovLemmas

variable {K : Type*} [Field K] {n p : Nat}

theorem wcov_center_apply (sqrt : K → K) (x : Matrix (Fin n) (Fin p) K) (w : Fin n → K)
    (k : Fin p) : (wcov sqrt x w).center k = (∑ i, x i k * w i) / ∑ i, w i := rfl

theorem wcov_cov_apply (sqrt : K → K) (x : Matrix (Fin n) (Fin p) K) (w : Fin n → K)
    (k l : Fin p) :
    (wcov sqrt x w).cov k l
      = if l ≤ k then
          ∑ i, ((x i k - (wcov sqrt x w).center k) * sqrt (w i / ∑ t, w t))
            * ((x i l - (wcov sqrt x w).center l) * sqrt (w i / ∑ t, w t))
        else
          ∑ i, ((x i l - (wcov sqrt x w).center l) * sqrt (w i / ∑ t, w t))
            * ((x i k - (wcov sqrt x w).center k) * sqrt (w i / ∑ t, w t)) := by
  by_cases h : l ≤ k
  · simp [wcov, selfadjointLowerToDense, rankUpdateLower, rowwiseSub, Matrix.mul_diagonal, h]
  · have h2 : k ≤ l := le_of_lt (not_le.mp h)
    simp [wcov, selfadjointLowerToDense, rankUpdateLower, rowwiseSub, Matrix.mul_diagonal, h, h2]

end WcovLemmas

/-- C1. With non-negative weights of positive sum, entry `[k,l]` of the covariance returned by
`wcov` is `∑ i, (w i / ws) * (x i k - center k) * (x i l - center l)` with `ws = ∑ w`: the
biased weighted covariance, normalised by the weight sum. -/
theorem wcov_cov_eq_weighted_sum {K : Type*} [LinearOrderedField K] {n p : Nat}
    (sqrt : K → K) (hsqrt : ∀ a : K, 0 ≤ a → sqrt a * sqrt a = a)
    (x : Matrix (Fin n) (Fin p) K) (w : Fin n → K)
    (hw : ∀ i, 0 ≤ w i) (hws : 0 < ∑ i, w i) (k l : Fin p) :
    (wcov sqrt x w).cov k l
      = ∑ i, (w i / ∑ t, w t) * (x i k - (wcov sqrt x w).center k)
          * (x i l - (wcov sqrt x w).center l) := by
  have hs : ∀ i, sqrt (w i / ∑ t, w t) * sqrt (w i / ∑ t, w t) = w i / ∑ t, w t :=
    fun i => hsqrt _ (div_nonneg (hw i) hws.le)
  rw [wcov_cov_apply]
  split
  · refine Finset.sum_congr rfl fun i _ => ?_
    linear_combination
      ((x i k - (wcov sqrt x w).center k) * (x i l - (wcov sqrt x w).center l)) * hs i
  · refine Finset.sum_congr rfl fun i _ => ?_
    linear_combination
      ((x i k - (wcov sqrt x w).center k) * (x i l - (wcov sqrt x w).center l)) * hs i

/-- Witness for C1 (the scenario of the specification): four points at the corners of a square
with unit weights have the identity as covariance. -/
theorem wcov_cov_eq_weighted_sum_witness :
    (∀ a : ℝ, 0 ≤ a → Real.sqrt a * Real.sqrt a = a) ∧
    (∀ i : Fin 4, (0 : ℝ) ≤ (fun _ => 1 : Fin 4 → ℝ) i) ∧
    (0 : ℝ) < ∑ i : Fin 4, (fun _ => 1 : Fin 4 → ℝ) i ∧
    ∀ k l : Fin 2,
      (wcov Real.sqrt (!![0, 0; 2, 0; 0, 2; 2, 2] : Matrix (Fin 4) (Fin 2) ℝ) (fun _ => 1)).cov k l
        = if k = l then 1 else 0 := by
  have h1 : ∀ a : ℝ, 0 ≤ a → Real.sqrt a * Real.sqrt a = a := fun a => Real.mul_self_sqrt
  have h2 : ∀ i : Fin 4, (0 : ℝ) ≤ (fun _ => 1 : Fin 4 → ℝ) i := fun _ => zero_le_one
  have h3 : (0 : ℝ) < ∑ i : Fin 4, (fun _ => 1 : Fin 4 → ℝ) i := by norm_num
  refine ⟨h1, h2, h3, fun k l => ?_⟩
  rw [wcov_cov_eq_weighted_sum Real.sqrt h1 _ _ h2 h3 k l]
  fin_cases k <;> fin_cases l <;>
    simp [wcov_center_apply, Fin.sum_univ_four, Matrix.vecHead, Matrix.vecTail] <;> norm_num

/-- C2. With a positive weight sum, entry `k` of the center returned by `wcov` is the weighted
arithmetic mean `(∑ i, x i k * w i) / ∑ w` of column `k`: the value that, multiplied by the
weight sum, gives the weighted column sum. -/
theorem wcov_center_eq_weighted_mean {K : Type*} [LinearOrderedField K] {n p : Nat}
    (sqrt : K → K) (x : Matrix (Fin n) (Fin p) K) (w : Fin n → K)
    (hws : 0 < ∑ i, w i) (k : Fin p) :
    (wcov sqrt x w).center k = (∑ i, x i k * w i) / (∑ i, w i) ∧
    (wcov sqrt x w).center k * (∑ i, w i) = ∑ i, x i k * w i := by
  refine ⟨rfl, ?_⟩
  rw [wcov_center_apply]
  exact div_mul_cancel₀ _ (ne_of_gt hws)

/-- Witness for C2 (the scenario of the specification): the center of the four corners of a
square with unit weights is `(1, 1)`. -/
theorem wcov_center_eq_weighted_mean_witness :
    (0 : ℝ) < ∑ i : Fin 4, (fun _ => 1 : Fin 4 → ℝ) i ∧
    ∀ k : Fin 2,
      (wcov Real.sqrt (!![0, 0; 2, 0; 0, 2; 2, 2] : Matrix (Fin 4) (Fin 2) ℝ)
        (fun _ => 1)).center k = 1 := by
  have h3 : (0 : ℝ) < ∑ i : Fin 4, (fun _ => 1 : Fin 4 → ℝ) i := by norm_num
  refine ⟨h3, fun k => ?_⟩
  rw [(wcov_center_eq_weighted_mean Real.sqrt _ _ h3 k).1]
  fin_cases k <;>
    simp [Fin.sum_univ_four, Matrix.vecHead, Matrix.vecTail] <;> norm_num

/-! ## `Mahalanobis`: the quadratic form -/

section MahalanobisLemmas

variable {K : Type*} [Field K] {n p : Nat}

theorem Mahalanobis_apply (inverse : Matrix (Fin p) (Fin p) K → Matrix (Fin p) (Fin p) K)
    (x : Matrix (Fin n) (Fin p) K) (center : Fin p → K) (cov : Matrix (Fin p) (Fin p) K)
    (i : Fin n) (j : Fin 1) :
    Mahalanobis inverse x center cov i j
      = ∑ k, (∑ l, (x i l - center l) * inverse cov l k) * (x i k - center k) := by
  simp [Mahalanobis, rowwiseSum, cwiseProduct, rowwiseSub, Matrix.mul_apply]

theorem cofactorInverse_contract : InverseContract (cofactorInverse : Matrix (Fin p) (Fin p) K → _) := by
  intro A hA
  have hdet : A.det ≠ 0 := hA.ne_zero
  rw [cofactorInverse, Matrix.mul_smul, Matrix.mul_adjugate, smul_smul, inv_mul_cancel₀ hdet,
    one_smul]

theorem inverse_eq_inv_of_contract
    (inverse : Matrix (Fin p) (Fin p) K → Matrix (Fin p) (Fin p) K)
    (hinv : InverseContract inverse) (cov : Matrix (Fin p) (Fin p) K) (hcov : IsUnit cov.det) :
    inverse cov = cov⁻¹ :=
  (Matrix.inv_eq_right_inv (hinv cov hcov)).symm

end MahalanobisLemmas

theorem coefficients_length {K : Type*} {r c : Nat} (m : Matrix (Fin r) (Fin c) K) :
    (coefficients m).length = c * r := by
  have h : (List.length ∘ fun j : Fin c => List.map (fun i => m i j) (List.finRange r))
      = fun _ => r := by
    funext j; simp
  simp [coefficients, List.length_flatMap, h]

/-- C3. For an invertible `cov`, every entry of row `i` of the result of `Mahalanobis` is the
quadratic form `(x_i - center)ᵀ · cov⁻¹ · (x_i - center)`, and the result (an `n × 1` matrix)
holds exactly `n` coefficients, one per row of `x`. -/
theorem Mahalanobis_eq_quadratic_form {K : Type*} [Field K] {n p : Nat}
    (inverse : Matrix (Fin p) (Fin p) K → Matrix (Fin p) (Fin p) K)
    (hinv : InverseContract inverse)
    (x : Matrix (Fin n) (Fin p) K) (center : Fin p → K) (cov : Matrix (Fin p) (Fin p) K)
    (hcov : IsUnit cov.det) :
    (∀ (i : Fin n) (j : Fin 1),
      Mahalanobis inverse x center cov i j
        = Matrix.dotProduct (fun k => x i k - center k)
            (cov⁻¹.mulVec (fun k => x i k - center k))) ∧
    (coefficients (Mahalanobis inverse x center cov)).length = n := by
  refine ⟨fun i j => ?_, by simp [coefficients_length]⟩
  rw [Mahalanobis_apply, inverse_eq_inv_of_contract inverse hinv cov hcov]
  simp only [Matrix.dotProduct, Matrix.mulVec, Finset.mul_sum, Finset.sum_mul]
  rw [Finset.sum_comm]
  refine Finset.sum_congr rfl fun l _ => Finset.sum_congr rfl fun k _ => ?_
  ring

/-- Witness for C3 (the scenario of the specification): with the identity as covariance and
center `(1, 1)`, the rows `(1, 1)` and `(3, 1)` have squared distances `0` and `4`. -/
theorem Mahalanobis_eq_quadratic_form_witness :
    InverseContract (cofactorInverse : Matrix (Fin 2) (Fin 2) ℚ → _) ∧
    IsUnit (1 : Matrix (Fin 2) (Fin 2) ℚ).det ∧
    (∀ (i : Fin 2) (j : Fin 1),
      Mahalanobis cofactorInverse (!![1, 1; 3, 1] : Matrix (Fin 2) (Fin 2) ℚ) ![1, 1] 1 i j
        = ![0, 4] i) ∧
    (coefficients (Mahalanobis cofactorInverse (!![1, 1; 3, 1] : Matrix (Fin 2) (Fin 2) ℚ)
      ![1, 1] 1)).length = 2 := by
  have h1 : IsUnit (1 : Matrix (Fin 2) (Fin 2) ℚ).det := by simp
  have h := Mahalanobis_eq_quadratic_form cofactorInverse cofactorInverse_contract
    (!![1, 1; 3, 1] : Matrix (Fin 2) (Fin 2) ℚ) ![1, 1] 1 h1
  refine ⟨cofactorInverse_contract, h1, fun i j => ?_, h.2⟩
  rw [h.1 i j]
  fin_cases i <;> simp [Matrix.dotProduct, Fin.sum_univ_two]
  norm_num

/-! ## `eigen`: order and sign of the returned eigenvectors -/

section EigenLemmas

variable {K : Type*} {p : Nat}

theorem eigen_values_apply [Neg K]
    (solver : Matrix (Fin p) (Fin p) K → SelfAdjointEigenSolver p K)
    (cov : Matrix (Fin p) (Fin p) K) (k : Fin p) :
    (eigen solver cov).values k = (solver cov).eigenvalues (Fin.rev k) := rfl

/-- What the source computes: column `k` of `vectors` is the negated row `p-1-k` of the
eigenvector matrix of the solver. -/
theorem eigen_vectors_apply [Neg K]
    (solver : Matrix (Fin p) (Fin p) K → SelfAdjointEigenSolver p K)
    (cov : Matrix (Fin p) (Fin p) K) (i k : Fin p) :
    (eigen solver cov).vectors i k = -(solver cov).eigenvectors (Fin.rev k) i := rfl

end EigenLemmas

theorem cov3_symmetric : cov3.transpose = cov3 := by
  ext i j
  fin_cases i <;> fin_cases j <;> simp [cov3]

theorem sign_mul_self (b : Bool) : sign b * sign b = 1 := by
  cases b <;> simp [sign]

theorem solved3_contract (a b c : Bool) : SolverContract cov3 (solved3 a b c) := by
  refine ⟨?_, ?_, ?_⟩
  · intro i j h
    fin_cases i <;> fin_cases j <;> simp [solved3] at h ⊢ <;> norm_num
  · intro k
    funext i
    fin_cases k <;> fin_cases i <;>
      simp [cov3, solved3, Matrix.mulVec, Matrix.dotProduct, Fin.sum_univ_three,
        Matrix.vecHead, Matrix.vecTail] <;> ring1
  · ext i j
    fin_cases i <;> fin_cases j <;>
      simp [solved3, Matrix.mul_apply, Fin.sum_univ_three, Matrix.vecHead, Matrix.vecTail] <;>
      first
        | ring1
        | linear_combination sign_mul_self a
        | linear_combination sign_mul_self b
        | linear_combination sign_mul_self c

/-- C4 (evaluation at a failing input). On the symmetric matrix `cov3`, whatever signs the
solver gives to its unit eigenvectors, its answer meets the solver contract, `eigen` returns
`243`, the largest eigenvalue, as `values 0`, and column `0` of the returned `vectors` is not an
eigenvector of `cov3` for `values 0`. -/
theorem eigen_leading_column_not_eigenvector (a b c : Bool) :
    cov3.transpose = cov3 ∧
    SolverContract cov3 (solved3 a b c) ∧
    (eigen (fun _ => solved3 a b c) cov3).values 0 = 243 ∧
    cov3.mulVec (fun i => (eigen (fun _ => solved3 a b c) cov3).vectors i 0)
      ≠ (eigen (fun _ => solved3 a b c) cov3).values 0
          • (fun i => (eigen (fun _ => solved3 a b c) cov3).vectors i 0) := by
  refine ⟨cov3_symmetric, solved3_contract a b c, ?_, ?_⟩
  · simp [eigen_values_apply, solved3, Fin.rev]
  · intro h
    have h0 := congrFun h 0
    revert h0
    cases a <;> cases b <;> cases c <;>
      simp [eigen, reverse, colwiseReverse, Fin.rev, cov3, solved3, sign, Matrix.mulVec,
        Matrix.dotProduct, Fin.sum_univ_three, Matrix.vecHead, Matrix.vecTail] <;>
      norm_num

/-- C5 (evaluation at a failing input). On `cov3`, whatever signs the solver gives to its unit
eigenvectors, column `0` of the returned `vectors` is the negated row `2` of the eigenvector
matrix of the solver; it is not the negation of the eigenvector `2` of the solver (the one that
belongs to `values 0`), and neither is row `0` of the returned `vectors`. -/
theorem eigen_column_not_negated_solver_vector (a b c : Bool) :
    SolverContract cov3 (solved3 a b c) ∧
    (fun i => (eigen (fun _ => solved3 a b c) cov3).vectors i 0)
      = (fun i => -(solved3 a b c).eigenvectors 2 i) ∧
    (fun i => (eigen (fun _ => solved3 a b c) cov3).vectors i 0)
      ≠ (fun i => -(solved3 a b c).eigenvectors i 2) ∧
    (fun j => (eigen (fun _ => solved3 a b c) cov3).vectors 0 j)
      ≠ (fun i => -(solved3 a b c).eigenvectors i 2) := by
  refine ⟨solved3_contract a b c, ?_, ?_, ?_⟩
  · funext i
    rw [eigen_vectors_apply]
    rfl
  · intro h
    have h1 := congrFun h 1
    revert h1
    cases a <;> cases b <;> cases c <;>
      simp [eigen, colwiseReverse, Fin.rev, solved3, sign, Matrix.vecHead, Matrix.vecTail] <;>
      norm_num
  · intro h
    have h0 := congrFun h 0
    revert h0
    cases a <;> cases b <;> cases c <;>
      simp [eigen, colwiseReverse, Fin.rev, solved3, sign, Matrix.vecHead, Matrix.vecTail] <;>
      norm_num

/-! ## Error handling of `wcov` and `Mahalanobis` -/

/-- C6 (counterexample). With the weights `[0, 0, 0]`, whose sum is zero, the call of `wcov`
does not fail with `InvalidWeights`: it returns a list, whose center is the quotient of the
weighted column sum by the zero weight sum. -/
theorem wcov_zero_weights_no_error :
    (∑ i : Fin 3, (fun _ => 0 : Fin 3 → ℝ) i) = 0 ∧
    wcov_call Real.sqrt (!![1, 2; 3, 4; 5, 6] : Matrix (Fin 3) (Fin 2) ℝ) (fun _ => 0)
      ≠ Except.error NumericError.InvalidWeights ∧
    ∃ r : Moments 2 ℝ,
      wcov_call Real.sqrt (!![1, 2; 3, 4; 5, 6] : Matrix (Fin 3) (Fin 2) ℝ) (fun _ => 0)
        = Except.ok r ∧
      ∀ k, r.center k
        = (∑ i, (!![1, 2; 3, 4; 5, 6] : Matrix (Fin 3) (Fin 2) ℝ) i k * 0) / 0 := by
  refine ⟨by simp, by simp [wcov_call], _, rfl, fun k => ?_⟩
  simp [wcov_center_apply]

/-- C6 (amended). For every `x` and every `w` whose sum is zero or negative, the call of `wcov`
raises no error: it returns the list built from the quotients by that weight sum. -/
theorem wcov_nonpositive_weight_sum_returns {K : Type*} [LinearOrderedField K] {n p : Nat}
    (sqrt : K → K) (x : Matrix (Fin n) (Fin p) K) (w : Fin n → K)
    (_hws : ∑ i, w i ≤ 0) :
    wcov_call sqrt x w = Except.ok (wcov sqrt x w) ∧
    (∀ e : NumericError, wcov_call sqrt x w ≠ Except.error e) ∧
    ∀ k, (wcov sqrt x w).center k = (∑ i, x i k * w i) / ∑ i, w i := by
  refine ⟨rfl, fun e h => ?_, fun k => rfl⟩
  simp [wcov_call] at h

/-- Witness for the amended C6: the weights `[0, 0, 0]`. -/
theorem wcov_nonpositive_weight_sum_returns_witness :
    (∑ i : Fin 3, (fun _ => 0 : Fin 3 → ℝ) i) ≤ 0 ∧
    wcov_call Real.sqrt (!![1, 2; 3, 4; 5, 6] : Matrix (Fin 3) (Fin 2) ℝ) (fun _ => 0)
      = Except.ok (wcov Real.sqrt (!![1, 2; 3, 4; 5, 6] : Matrix (Fin 3) (Fin 2) ℝ)
          (fun _ => 0)) :=
  ⟨by simp,
    (wcov_nonpositive_weight_sum_returns Real.sqrt
      (!![1, 2; 3, 4; 5, 6] : Matrix (Fin 3) (Fin 2) ℝ) (fun _ => 0) (by simp)).1⟩

/-- C7 (counterexample). With the all-zero `2 × 2` matrix as `cov`, which is singular, the call
of `Mahalanobis` does not fail with `SingularCovariance`: it returns a matrix of distances. -/
theorem Mahalanobis_zero_cov_no_error :
    ¬ IsUnit (0 : Matrix (Fin 2) (Fin 2) ℚ).det ∧
    Mahalanobis_call cofactorInverse (!![1, 1; 3, 1] : Matrix (Fin 2) (Fin 2) ℚ) ![1, 1] 0
      ≠ Except.error NumericError.SingularCovariance ∧
    ∃ r : Matrix (Fin 2) (Fin 1) ℚ,
      Mahalanobis_call cofactorInverse (!![1, 1; 3, 1] : Matrix (Fin 2) (Fin 2) ℚ) ![1, 1] 0
        = Except.ok r := by
  refine ⟨by simp, by simp [Mahalanobis_call], _, rfl⟩

/-- C7 (amended). For every `x`, `center` and singular `cov`, and whatever the library routine
`inverse()` produces on it, the call of `Mahalanobis` raises no error: it returns the matrix of
row sums computed from that product. -/
theorem Mahalanobis_singular_cov_returns {K : Type*} [Field K] {n p : Nat}
    (inverse : Matrix (Fin p) (Fin p) K → Matrix (Fin p) (Fin p) K)
    (x : Matrix (Fin n) (Fin p) K) (center : Fin p → K) (cov : Matrix (Fin p) (Fin p) K)
    (_hcov : ¬ IsUnit cov.det) :
    Mahalanobis_call inverse x center cov = Except.ok (Mahalanobis inverse x center cov) ∧
    (∀ e : NumericError, Mahalanobis_call inverse x center cov ≠ Except.error e) ∧
    ∀ (i : Fin n) (j : Fin 1),
      Mahalanobis inverse x center cov i j
        = ∑ k, (∑ l, (x i l - center l) * inverse cov l k) * (x i k - center k) := by
  refine ⟨rfl, fun e h => ?_, fun i j => Mahalanobis_apply inverse x center cov i j⟩
  simp [Mahalanobis_call] at h

/-- Witness for the amended C7: the all-zero `2 × 2` matrix. -/
theorem Mahalanobis_singular_cov_returns_witness :
    ¬ IsUnit (0 : Matrix (Fin 2) (Fin 2) ℚ).det ∧
    Mahalanobis_call cofactorInverse (!![1, 1; 3, 1] : Matrix (Fin 2) (Fin 2) ℚ) ![1, 1] 0
      = Except.ok
          (Mahalanobis cofactorInverse (!![1, 1; 3, 1] : Matrix (Fin 2) (Fin 2) ℚ) ![1, 1] 0) :=
  ⟨by simp,
    (Mahalanobis_singular_cov_returns cofactorInverse
      (!![1, 1; 3, 1] : Matrix (Fin 2) (Fin 2) ℚ) ![1, 1] 0 (by simp)).1⟩

/-! ## `as_dist`: the loops and their trace -/

section AsDistLemmas

variable {α : Type*}

theorem writeNext_append_cons (pre : List α) (r : α) (rest : List α) (v : α) :
    writeNext (pre ++ r :: rest, pre.length) v
      = Except.ok ((pre ++ [v]) ++ rest, (pre ++ [v]).length) := by
  simp [writeNext]

theorem writeNext_append_nil (pre : List α) (v : α) :
    writeNext (pre ++ [], pre.length) v = Except.error Fault.outOfBounds := by
  simp [writeNext]

theorem foldlM_writeNext (vs : List α) : ∀ (pre rest : List α),
    vs.foldlM writeNext (pre ++ rest, pre.length)
      = if vs.length ≤ rest.length then
          Except.ok (pre ++ vs ++ rest.drop vs.length, pre.length + vs.length)
        else Except.error Fault.outOfBounds := by
  induction vs with
  | nil => intro pre rest; simp [pure, Except.pure]
  | cons v vs ih =>
    intro pre rest
    rw [List.foldlM_cons]
    cases rest with
    | nil =>
      rw [writeNext_append_nil]
      simp [bind, Except.bind]
    | cons r rest =>
      rw [writeNext_append_cons]
      show List.foldlM writeNext ((pre ++ [v]) ++ rest, (pre ++ [v]).length) vs = _
      rw [ih (pre ++ [v]) rest]
      by_cases h : vs.length ≤ rest.length
      · have h2 : (v :: vs).length ≤ (r :: rest).length := by simpa using h
        rw [if_pos h, if_pos h2]
        simp
        omega
      · have h2 : ¬ (v :: vs).length ≤ (r :: rest).length := by simpa using h
        rw [if_neg h, if_neg h2]

theorem readCell_eq_cellOr [Zero α] {nrow ncol : Nat} (mat : Matrix (Fin nrow) (Fin ncol) α)
    {i j : Nat} (hi : i < nrow) (hj : j < ncol) :
    readCell mat i j = Except.ok (cellOr mat (i, j)) := by
  simp [readCell, cellOr, hi, hj]

theorem foldlM_read_write [Zero α] {nrow ncol : Nat} (mat : Matrix (Fin nrow) (Fin ncol) α)
    {j : Nat} (hj : j < ncol) (l : List Nat) :
    (∀ i ∈ l, i < nrow) → ∀ st : List α × Nat,
    l.foldlM (fun st i => do
        let v ← readCell mat i j
        writeNext st v) st
      = (l.map fun i => cellOr mat (i, j)).foldlM writeNext st := by
  induction l with
  | nil => intro _ st; rfl
  | cons i l ih =>
    intro hl st
    have hi : i < nrow := hl i (List.mem_cons_self _ _)
    rw [List.map_cons, List.foldlM_cons, List.foldlM_cons, readCell_eq_cellOr mat hi hj]
    show (writeNext st (cellOr mat (i, j)) >>= fun s => List.foldlM _ s l) = _
    congr 1
    funext s
    exact ih (fun t ht => hl t (List.mem_cons_of_mem _ ht)) s

theorem as_dist_inner_eq [Zero α] {nrow ncol : Nat} (mat : Matrix (Fin nrow) (Fin ncol) α)
    {j : Nat} (hj : j < ncol) (st : List α × Nat) :
    as_dist_inner mat j st
      = (((List.range' (j + 1) (nrow - (j + 1))).map fun i => (i, j)).map
          (cellOr mat)).foldlM writeNext st := by
  rw [as_dist_inner, foldlM_read_write mat hj, List.map_map]
  · rfl
  · intro i hi
    rw [List.mem_range'_1] at hi
    omega

theorem foldlM_inner_eq [Zero α] {nrow ncol : Nat} (mat : Matrix (Fin nrow) (Fin ncol) α)
    (L : List Nat) : (∀ j ∈ L, j < ncol) → ∀ st : List α × Nat,
    L.foldlM (fun st j => as_dist_inner mat j st) st
      = ((L.flatMap fun j => (List.range' (j + 1) (nrow - (j + 1))).map fun i => (i, j)).map
          (cellOr mat)).foldlM writeNext st := by
  induction L with
  | nil => intro _ st; rfl
  | cons j L ih =>
    intro hL st
    have hj : j < ncol := hL j (List.mem_cons_self _ _)
    rw [List.foldlM_cons, List.flatMap_cons, List.map_append, List.foldlM_append,
      as_dist_inner_eq mat hj]
    congr 1
    funext s
    exact ih (fun t ht => hL t (List.mem_cons_of_mem _ ht)) s

theorem as_dist_loop_eq [Zero α] {nrow ncol : Nat} (mat : Matrix (Fin nrow) (Fin ncol) α)
    (st : List α × Nat) :
    as_dist_loop mat st
      = ((as_dist_cells nrow ncol).map (cellOr mat)).foldlM writeNext st :=
  foldlM_inner_eq mat (List.range ncol) (fun _ hj => List.mem_range.mp hj) st

theorem as_dist_cells_of_le_one {nrow : Nat} (ncol : Nat) (h : nrow ≤ 1) :
    as_dist_cells nrow ncol = [] := by
  have h0 : ∀ j : Nat, nrow - (j + 1) = 0 := fun j => by omega
  simp [as_dist_cells, h0]

/-- Closed form of `as_dist`: the call fails when the computed `size` is negative or smaller
than the number of visited cells; otherwise the visited cells fill the head of the zero-filled
vector of length `size`. -/
theorem as_dist_eq [Zero α] {nrow ncol : Nat} (mat : Matrix (Fin nrow) (Fin ncol) α) :
    as_dist mat
      = if as_dist_size nrow < 0 then Except.error Fault.negativeLength
        else if (as_dist_cells nrow ncol).length ≤ (as_dist_size nrow).toNat then
          Except.ok
            { data := (as_dist_cells nrow ncol).map (cellOr mat)
                ++ List.replicate ((as_dist_size nrow).toNat - (as_dist_cells nrow ncol).length) 0
              Size := nrow, Diag := false, Upper := false }
        else Except.error Fault.outOfBounds := by
  unfold as_dist allocVector
  by_cases hs : as_dist_size nrow < 0
  · simp [hs, bind, Except.bind]
  · simp only [hs, if_false]
    have hfold := foldlM_writeNext ((as_dist_cells nrow ncol).map (cellOr mat)) []
      (List.replicate (as_dist_size nrow).toNat (0 : α))
    simp only [List.nil_append, List.length_nil, List.length_map, List.length_replicate,
      Nat.zero_add, List.drop_replicate] at hfold
    by_cases h1 : 1 < nrow
    · simp only [h1, if_true]
      show (as_dist_loop mat (List.replicate (as_dist_size nrow).toNat 0, 0) >>= _) = _
      rw [as_dist_loop_eq, hfold]
      by_cases hl : (as_dist_cells nrow ncol).length ≤ (as_dist_size nrow).toNat
      · simp [hl, bind, Except.bind, pure, Except.pure]
      · simp [hl, bind, Except.bind]
    · have hc : as_dist_cells nrow ncol = [] := as_dist_cells_of_le_one ncol (by omega)
      simp [h1, hc, bind, Except.bind, pure, Except.pure]

end AsDistLemmas

/-! ### Evaluation of `as_dist` on small inputs -/

theorem as_dist_dist3_eval :
    as_dist dist3 = Except.ok { data := [5, 7, 3], Size := 3, Diag := false, Upper := false } :=
  rfl

theorem as_dist_tall_eval :
    as_dist (!![0, 1; 5, 0; 7, 3; 9, 10] : Matrix (Fin 4) (Fin 2) ℚ)
      = Except.ok { data := [5, 7, 9, 3, 10, 0], Size := 4, Diag := false, Upper := false } :=
  rfl

theorem as_dist_wide_eval :
    as_dist (!![0, 1, 4, 5; 5, 0, 3, 4] : Matrix (Fin 2) (Fin 4) ℚ)
      = Except.ok { data := [5], Size := 2, Diag := false, Upper := false } :=
  rfl

theorem as_dist_empty_eval :
    as_dist (0 : Matrix (Fin 0) (Fin 0) ℚ)
      = Except.ok { data := [], Size := 0, Diag := false, Upper := false } ∧
    as_dist (!![4] : Matrix (Fin 1) (Fin 1) ℚ)
      = Except.ok { data := [], Size := 1, Diag := false, Upper := false } :=
  ⟨rfl, rfl⟩

/-! ### Integer arithmetic of `as_dist` -/

theorem wrapInt32_eq_self {z : Int} (h0 : -2147483648 ≤ z) (h1 : z < 2147483648) :
    wrapInt32 z = z := by
  unfold wrapInt32; omega

theorem wrapInt32_le_self {z : Int} (h0 : 0 ≤ z) : wrapInt32 z ≤ z := by
  unfold wrapInt32; omega

theorem int_mul_pred (n : Nat) : (n : Int) * ((n : Int) - 1) = ((n * (n - 1) : Nat) : Int) := by
  cases n with
  | zero => simp
  | succ k => push_cast; simp

theorem as_dist_size_le (nrow : Nat) : as_dist_size nrow ≤ ((nrow * (nrow - 1) / 2 : Nat) : Int) := by
  unfold as_dist_size
  rw [int_mul_pred]
  have h := wrapInt32_le_self (Int.ofNat_nonneg (nrow * (nrow - 1)))
  generalize wrapInt32 ((nrow * (nrow - 1) : Nat) : Int) = y at h ⊢
  generalize nrow * (nrow - 1) = P at h ⊢
  rcases Int.lt_or_le y 0 with hy | hy
  · have h1 : y.tdiv 2 = -((-y).tdiv 2) := by rw [Int.neg_tdiv, neg_neg]
    have h2 : 0 ≤ (-y).tdiv 2 := Int.tdiv_nonneg (by omega) (by decide)
    omega
  · rw [Int.tdiv_eq_ediv hy (by decide)]
    omega

theorem as_dist_size_eq {nrow : Nat} (h : nrow * (nrow - 1) < 2 ^ 31) :
    as_dist_size nrow = ((nrow * (nrow - 1) / 2 : Nat) : Int) := by
  unfold as_dist_size
  rw [int_mul_pred, wrapInt32_eq_self (by omega) (by omega),
    Int.tdiv_eq_ediv (Int.ofNat_nonneg _) (by decide)]
  omega

theorem colStart_succ (nrow j : Nat) : colStart nrow (j + 1) = colStart nrow j + (nrow - (j + 1)) := by
  simp [colStart, List.range_succ]

theorem two_mul_colStart (nrow : Nat) : ∀ j : Nat, j ≤ nrow →
    2 * colStart nrow j + j * (j + 1) = 2 * (j * nrow) := by
  intro j
  induction j with
  | zero => intro _; simp [colStart]
  | succ j ih =>
    intro h
    obtain ⟨c, rfl⟩ : ∃ c, nrow = j + 1 + c := ⟨nrow - (j + 1), by omega⟩
    have ih2 := ih (by omega)
    rw [colStart_succ]
    have hc : j + 1 + c - (j + 1) = c := by omega
    rw [hc]
    nlinarith [ih2]

theorem colStart_eq {nrow j : Nat} (h : j ≤ nrow) :
    colStart nrow j = j * nrow - j * (j + 1) / 2 := by
  have h1 := two_mul_colStart nrow j h
  have h2 : j * (j + 1) % 2 = 0 := Nat.even_iff.mp (Nat.even_mul_succ_self j)
  omega

theorem colStart_self (n : Nat) : colStart n n = n * (n - 1) / 2 := by
  have h1 := two_mul_colStart n n le_rfl
  have h3 : n * (n - 1) + 2 * n = n * (n + 1) := by
    cases n with
    | zero => rfl
    | succ k => simp; ring
  have h4 : n * (n + 1) = n * n + n := by ring
  omega

/-! ### The trace of visited cells -/

theorem as_dist_cells_length (nrow ncol : Nat) :
    (as_dist_cells nrow ncol).length = colStart nrow ncol := by
  simp [as_dist_cells, colStart, List.length_flatMap, Function.comp_def]

theorem mem_as_dist_cells {nrow ncol : Nat} {c : Nat × Nat} :
    c ∈ as_dist_cells nrow ncol ↔ c.2 < ncol ∧ c.2 < c.1 ∧ c.1 < nrow := by
  obtain ⟨i, j⟩ := c
  simp only [as_dist_cells, List.mem_flatMap, List.mem_range, List.mem_map, List.mem_range'_1,
    Prod.mk.injEq]
  constructor
  · rintro ⟨t, ht, s, hs, rfl, rfl⟩
    omega
  · rintro ⟨h1, h2, h3⟩
    exact ⟨j, h1, i, by omega, rfl, rfl⟩

theorem getElem?_flatMap_offset {β γ : Type*} (f : β → List γ) :
    ∀ (L : List β) (a : Nat) (x : β), L[a]? = some x → ∀ b : Nat, b < (f x).length →
      (L.flatMap f)[((L.take a).map fun y => (f y).length).sum + b]? = (f x)[b]? := by
  intro L
  induction L with
  | nil => intro a x h; simp at h
  | cons y L ih =>
    intro a x h b hb
    cases a with
    | zero =>
      simp only [List.getElem?_cons_zero, Option.some.injEq] at h
      subst h
      simp [List.flatMap_cons, List.getElem?_append_left hb]
    | succ a =>
      simp only [List.getElem?_cons_succ] at h
      have := ih a x h b hb
      simp only [List.flatMap_cons, List.take_succ_cons, List.map_cons, List.sum_cons]
      rw [Nat.add_assoc, List.getElem?_append_right (by omega)]
      simpa using this

theorem as_dist_cells_getElem? (nrow ncol : Nat) {i j : Nat} (hj : j < ncol) (hji : j < i)
    (hi : i < nrow) :
    (as_dist_cells nrow ncol)[colStart nrow j + (i - j - 1)]? = some (i, j) := by
  have h := getElem?_flatMap_offset
    (fun j => (List.range' (j + 1) (nrow - (j + 1))).map fun i => (i, j))
    (List.range ncol) j j (by simp [hj]) (i - j - 1) (by simp; omega)
  have ht : List.take j (List.range ncol) = List.range j := by
    rw [List.take_range, Nat.min_eq_left hj.le]
  rw [ht] at h
  simp only [List.length_map, List.length_range'] at h
  rw [as_dist_cells, colStart, h]
  have hlt : i - j - 1 < nrow - (j + 1) := by omega
  simp [hlt]
  omega

theorem as_dist_cells_nodup (nrow ncol : Nat) : (as_dist_cells nrow ncol).Nodup := by
  rw [as_dist_cells, List.nodup_flatMap]
  constructor
  · intro j _
    refine List.Nodup.map ?_ (List.nodup_range' _ _)
    intro a b h
    simpa using h
  · refine List.Pairwise.imp ?_ (List.pairwise_lt_range ncol)
    intro a b hab
    simp only [Function.onFun, List.disjoint_left, List.mem_map, List.mem_range'_1]
    rintro ⟨i, j⟩ ⟨s, _, hs⟩ ⟨t, _, ht⟩
    simp only [Prod.mk.injEq] at hs ht
    omega

theorem filter_lt_range (j : Nat) : ∀ n : Nat,
    (List.range n).filter (fun i => decide (j < i)) = List.range' (j + 1) (n - (j + 1)) := by
  intro n
  induction n with
  | zero => simp
  | succ n ih =>
    rw [List.range_succ, List.filter_append, ih]
    by_cases h : j < n
    · have e : n + 1 - (j + 1) = (n - (j + 1)) + 1 := by omega
      rw [e, List.range'_concat]
      have e2 : j + 1 + 1 * (n - (j + 1)) = n := by omega
      simp [h]
      omega
    · have e : n + 1 - (j + 1) = 0 := by omega
      have e2 : n - (j + 1) = 0 := by omega
      simp [h, e, e2]

theorem cellOr_fin {α : Type*} [Zero α] {nrow ncol : Nat} (mat : Matrix (Fin nrow) (Fin ncol) α)
    (i : Fin nrow) (j : Fin ncol) : cellOr mat (i.val, j.val) = mat i j := by
  simp [cellOr]

theorem cells_map_eq_lowerTriangle {α : Type*} [Zero α] {n : Nat}
    (m : Matrix (Fin n) (Fin n) α) :
    (as_dist_cells n n).map (cellOr m) = lowerTriangleColumnMajor m := by
  rw [as_dist_cells, lowerTriangleColumnMajor, List.map_flatMap]
  conv_lhs => rw [← List.map_coe_finRange n, List.flatMap_map]
  congr 1
  funext j
  rw [List.map_map, ← filter_lt_range j.val n]
  conv_lhs => rw [← List.map_coe_finRange n, List.filter_map, List.map_map]
  have hp : ((fun i => decide (j.val < i)) ∘ Fin.val) = fun i : Fin n => decide (j < i) := by
    funext i; rfl
  rw [hp]
  refine List.map_congr_left fun i _ => ?_
  exact cellOr_fin m i j

/-! ### `as_dist` on square matrices -/

theorem as_dist_ok_data {α : Type*} [Zero α] {n : Nat} (m : Matrix (Fin n) (Fin n) α)
    (d : Dist α) (h : as_dist m = Except.ok d) :
    d.data = lowerTriangleColumnMajor m ∧ (as_dist_size n).toNat = n * (n - 1) / 2 := by
  rw [as_dist_eq] at h
  have hle := as_dist_size_le n
  have hlen : (as_dist_cells n n).length = n * (n - 1) / 2 := by
    rw [as_dist_cells_length, colStart_self]
  split at h
  · exact absurd h (by simp)
  · split at h
    · rename_i h1 h2
      rw [hlen] at h2
      have h3 : (as_dist_size n).toNat = n * (n - 1) / 2 := by omega
      injection h with h
      subst h
      refine ⟨?_, h3⟩
      simp [hlen, h3, cells_map_eq_lowerTriangle]
    · exact absurd h (by simp)

theorem as_dist_of_fits {α : Type*} [Zero α] {n : Nat} (m : Matrix (Fin n) (Fin n) α)
    (h : n * (n - 1) < 2 ^ 31) :
    as_dist m = Except.ok
      { data := lowerTriangleColumnMajor m, Size := n, Diag := false, Upper := false } := by
  have hs := as_dist_size_eq h
  have hlen : (as_dist_cells n n).length = n * (n - 1) / 2 := by
    rw [as_dist_cells_length, colStart_self]
  rw [as_dist_eq, hs, hlen, if_neg (by omega), Int.toNat_ofNat, if_pos le_rfl, Nat.sub_self,
    cells_map_eq_lowerTriangle]
  simp

theorem lowerTriangle_length {α : Type*} [Zero α] {n : Nat} (m : Matrix (Fin n) (Fin n) α) :
    (lowerTriangleColumnMajor m).length = n * (n - 1) / 2 := by
  rw [← cells_map_eq_lowerTriangle, List.length_map, as_dist_cells_length, colStart_self]

theorem triOffset_eq {n i j : Nat} (hj : j ≤ n) :
    triOffset n i j = colStart n j + (i - j - 1) := by
  rw [triOffset, colStart_eq hj]

theorem triOffset_lt {n i j : Nat} (hji : j < i) (hi : i < n) : triOffset n i j < n * (n - 1) / 2 := by
  have h := as_dist_cells_getElem? n n (by omega) hji hi
  rw [← triOffset_eq (by omega)] at h
  have h2 := (List.getElem?_eq_some_iff.mp h).1
  rwa [as_dist_cells_length, colStart_self] at h2

/-- C8. For every `n × n` matrix `m`, the sequence returned by `as_dist` is exactly the strict
lower triangle of `m` in column-major order: for `j = 0, 1, ...` in that order, the entries
`m[j+1,j], ..., m[n-1,j]` (column `n-1` contributes nothing). A sequence is returned whenever
the `int` product `nrow * (nrow - 1)` is representable, that is when `n * (n - 1) < 2^31`. -/
theorem as_dist_data_eq_lowerTriangle {α : Type*} [Zero α] {n : Nat}
    (m : Matrix (Fin n) (Fin n) α) :
    (∀ d : Dist α, as_dist m = Except.ok d → d.data = lowerTriangleColumnMajor m) ∧
    (n * (n - 1) < 2 ^ 31 →
      as_dist m = Except.ok
        { data := lowerTriangleColumnMajor m, Size := n, Diag := false, Upper := false }) :=
  ⟨fun d h => (as_dist_ok_data m d h).1, as_dist_of_fits m⟩

/-- Witness for C8 (the scenario of the specification): the `3 × 3` matrix with `m[1,0] = 5`,
`m[2,0] = 7`, `m[2,1] = 3` gives `[5, 7, 3]` with the attributes `Size = 3`, `Diag = false`,
`Upper = false`. -/
theorem as_dist_data_eq_lowerTriangle_witness :
    3 * (3 - 1) < 2 ^ 31 ∧
    as_dist dist3 = Except.ok { data := [5, 7, 3], Size := 3, Diag := false, Upper := false } ∧
    ∀ d : Dist ℚ, as_dist dist3 = Except.ok d → d.data = [5, 7, 3] := by
  have hv : lowerTriangleColumnMajor dist3 = [5, 7, 3] := rfl
  have h := as_dist_data_eq_lowerTriangle dist3
  refine ⟨by norm_num, ?_, fun d hd => ?_⟩
  · rw [h.2 (by norm_num), hv]
  · rw [h.1 d hd, hv]

theorem triDecode_triOffset {n i j : Nat} (hji : j < i) (hi : i < n) :
    triDecode n (triOffset n i j) = (i, j) := by
  have h := as_dist_cells_getElem? n n (by omega) hji hi
  rw [← triOffset_eq (by omega)] at h
  simp [triDecode, List.getD_eq_getElem?_getD, h]

theorem triOffset_triDecode {n o : Nat} (ho : o < n * (n - 1) / 2) :
    (triDecode n o).2 < (triDecode n o).1 ∧ (triDecode n o).1 < n ∧
      triOffset n (triDecode n o).1 (triDecode n o).2 = o := by
  have hlen : o < (as_dist_cells n n).length := by
    rwa [as_dist_cells_length, colStart_self]
  have hd : triDecode n o = (as_dist_cells n n)[o] := by
    simp [triDecode, List.getD_eq_getElem?_getD, List.getElem?_eq_getElem hlen]
  have hmem : triDecode n o ∈ as_dist_cells n n := by
    rw [hd]; exact List.getElem_mem hlen
  obtain ⟨-, h2, h3⟩ := mem_as_dist_cells.mp hmem
  refine ⟨h2, h3, ?_⟩
  have h := as_dist_cells_getElem? n n (by omega) h2 h3
  rw [← triOffset_eq (by omega)] at h
  obtain ⟨hlt, he⟩ := List.getElem?_eq_some_iff.mp h
  have he2 : (as_dist_cells n n)[triOffset n (triDecode n o).1 (triDecode n o).2]
      = (as_dist_cells n n)[o] := by
    rw [he, ← hd]
  exact (List.Nodup.getElem_inj_iff (as_dist_cells_nodup n n)).mp he2

/-- C9. For every `n × n` matrix `m` and every pair `j < i < n`, the entry `m[i,j]` stands in
the output of `as_dist` at the offset `j·n − j·(j+1)/2 + (i − j − 1)` (an output exists whenever
`n * (n - 1) < 2^31`); that offset lies below `n(n−1)/2`, distinct pairs have distinct offsets,
every offset below `n(n−1)/2` is the offset of a pair, and `triDecode` recovers the pair from
the offset and `n` alone. -/
theorem as_dist_offset_bijection {α : Type*} [Zero α] {n : Nat} (m : Matrix (Fin n) (Fin n) α) :
    (∀ d : Dist α, as_dist m = Except.ok d →
      ∀ i j : Fin n, j < i → d.data[triOffset n i j]? = some (m i j)) ∧
    (n * (n - 1) < 2 ^ 31 → ∃ d : Dist α, as_dist m = Except.ok d) ∧
    (∀ i j : Nat, j < i → i < n → triOffset n i j < n * (n - 1) / 2) ∧
    (∀ i j s t : Nat, j < i → i < n → t < s → s < n →
      triOffset n i j = triOffset n s t → i = s ∧ j = t) ∧
    (∀ o : Nat, o < n * (n - 1) / 2 →
      ∃ i j : Nat, j < i ∧ i < n ∧ triOffset n i j = o) ∧
    (∀ i j : Nat, j < i → i < n → triDecode n (triOffset n i j) = (i, j)) ∧
    (∀ o : Nat, o < n * (n - 1) / 2 →
      triOffset n (triDecode n o).1 (triDecode n o).2 = o) := by
  refine ⟨?_, fun h => ⟨_, as_dist_of_fits m h⟩, fun i j => triOffset_lt, ?_, ?_,
    fun i j => triDecode_triOffset, fun o ho => (triOffset_triDecode ho).2.2⟩
  · intro d hd i j hji
    rw [(as_dist_ok_data m d hd).1, ← cells_map_eq_lowerTriangle, List.getElem?_map,
      triOffset_eq (by omega),
      as_dist_cells_getElem? n n j.isLt hji i.isLt]
    simp [cellOr_fin]
  · intro i j s t hji hi hts hs h
    have h1 := triDecode_triOffset hji hi
    have h2 := triDecode_triOffset hts hs
    rw [h, h2] at h1
    exact ⟨(Prod.mk.inj h1).1.symm, (Prod.mk.inj h1).2.symm⟩
  · intro o ho
    exact ⟨_, _, triOffset_triDecode ho⟩

/-- Witness for C9: in the output `[5, 7, 3]` for `dist3`, the entry `m[2,1] = 3` stands at
offset `1·3 − 1·2/2 + (2 − 1 − 1) = 2`, and offset `2` decodes to the pair `(2, 1)`. -/
theorem as_dist_offset_bijection_witness :
    3 * (3 - 1) < 2 ^ 31 ∧
    triOffset 3 2 1 = 2 ∧
    (∃ d : Dist ℚ, as_dist dist3 = Except.ok d ∧ d.data[triOffset 3 2 1]? = some (dist3 2 1)) ∧
    triOffset 3 2 1 < 3 * (3 - 1) / 2 ∧
    triDecode 3 (triOffset 3 2 1) = (2, 1) := by
  have h := as_dist_offset_bijection dist3
  obtain ⟨d, hd⟩ := h.2.1 (by norm_num)
  exact ⟨by norm_num, rfl, ⟨d, hd, h.1 d hd 2 1 (by decide)⟩,
    h.2.2.1 2 1 (by norm_num) (by norm_num), h.2.2.2.2.2.1 2 1 (by norm_num) (by norm_num)⟩

/-! ### The `int` computation of the output length -/

/-- Within the `int` range, that is for `n * (n - 1) < 2^31` (`n ≤ 46341`), `as_dist` returns a
sequence of length exactly `n(n−1)/2`, the value of `size`; for `n ≤ 1` it is empty. -/
theorem as_dist_length_of_fits {α : Type*} [Zero α] {n : Nat} (m : Matrix (Fin n) (Fin n) α)
    (h : n * (n - 1) < 2 ^ 31) :
    ∃ d : Dist α, as_dist m = Except.ok d ∧ d.data.length = n * (n - 1) / 2 ∧
      ((d.data.length : Nat) : Int) = as_dist_size n ∧ (n ≤ 1 → d.data = []) := by
  refine ⟨_, as_dist_of_fits m h, lowerTriangle_length m, ?_, fun h1 => ?_⟩
  · rw [as_dist_size_eq h, lowerTriangle_length]
  · apply List.eq_nil_of_length_eq_zero
    rw [lowerTriangle_length]
    interval_cases n <;> rfl

/-- C10 (evaluation at a failing input). For `n = 46342` the product `nrow * (nrow - 1)` is
`2147534622`, above the largest `int`; the wrapped `size` is negative and the call of `as_dist`
on the `46342 × 46342` zero matrix fails in the allocation instead of returning a sequence of
length `46342 · 46341 / 2 = 1073767311`. -/
theorem as_dist_size_overflow :
    46342 * (46342 - 1) / 2 = 1073767311 ∧
    as_dist_size 46342 = -1073716337 ∧
    as_dist (0 : Matrix (Fin 46342) (Fin 46342) ℚ) = Except.error Fault.negativeLength := by
  have hs : as_dist_size 46342 = -1073716337 := by decide
  refine ⟨by norm_num, hs, ?_⟩
  rw [as_dist_eq, hs, if_pos (by decide)]

/-! ## `wcov`: symmetry and positive semi-definiteness -/

/-- C11. The covariance returned by `wcov` is exactly symmetric, `cov i j = cov j i` for all
`i`, `j`: the rank update fills the lower triangle only and the dense matrix is its mirror
image. -/
theorem wcov_cov_symmetric {K : Type*} [Field K] {n p : Nat} (sqrt : K → K)
    (x : Matrix (Fin n) (Fin p) K) (w : Fin n → K) :
    (∀ i j : Fin p, (wcov sqrt x w).cov i j = (wcov sqrt x w).cov j i) ∧
    (wcov sqrt x w).cov.transpose = (wcov sqrt x w).cov ∧
    (∀ i j : Fin p, i < j →
      (wcov sqrt x w).cov i j
        = rankUpdateLower 0
            ((rowwiseSub x (wcov sqrt x w).center).transpose
              * Matrix.diagonal fun t => sqrt (w t / ∑ s, w s)) j i) := by
  have h : ∀ i j : Fin p, (wcov sqrt x w).cov i j = (wcov sqrt x w).cov j i := by
    intro i j
    simp only [wcov, selfadjointLowerToDense]
    rcases lt_trichotomy i j with hij | hij | hij
    · rw [if_neg (not_le.mpr hij), if_pos hij.le]
    · rw [hij]
    · rw [if_pos hij.le, if_neg (not_le.mpr hij)]
  refine ⟨h, ?_, ?_⟩
  · ext i j
    exact h j i
  · intro i j hij
    simp only [wcov, selfadjointLowerToDense]
    rw [if_neg (not_le.mpr hij)]

/-! ## `eigen`: order of the values, orthonormality of the vectors -/

/-- C12. When the solver returns its eigenvalues in increasing order, the values returned by
`eigen` are non-increasing: `values (i+1) ≤ values i` whenever `i + 1 < p`, and more generally
`values j ≤ values i` for `i ≤ j`. -/
theorem eigen_values_nonincreasing {K : Type*} [LinearOrderedField K] {p : Nat}
    (solver : Matrix (Fin p) (Fin p) K → SelfAdjointEigenSolver p K)
    (cov : Matrix (Fin p) (Fin p) K)
    (hasc : ∀ i j : Fin p, i ≤ j → (solver cov).eigenvalues i ≤ (solver cov).eigenvalues j) :
    (∀ (i : Nat) (h : i + 1 < p),
      (eigen solver cov).values ⟨i + 1, h⟩ ≤ (eigen solver cov).values ⟨i, by omega⟩) ∧
    (∀ i j : Fin p, i ≤ j → (eigen solver cov).values j ≤ (eigen solver cov).values i) := by
  have h2 : ∀ i j : Fin p, i ≤ j →
      (eigen solver cov).values j ≤ (eigen solver cov).values i := by
    intro i j hij
    rw [eigen_values_apply, eigen_values_apply]
    exact hasc _ _ (Fin.rev_le_rev.mpr hij)
  refine ⟨fun i h => h2 _ _ ?_, h2⟩
  simp [Fin.le_def]

/-- Witness for C12: on `cov3` the solver gives `81 ≤ 162 ≤ 243` and `eigen` returns
`243, 162, 81`. -/
theorem eigen_values_nonincreasing_witness :
    (∀ i j : Fin 3, i ≤ j →
      (solved3 true true true).eigenvalues i ≤ (solved3 true true true).eigenvalues j) ∧
    (eigen (fun _ => solved3 true true true) cov3).values = ![243, 162, 81] ∧
    (eigen (fun _ => solved3 true true true) cov3).values 1
      ≤ (eigen (fun _ => solved3 true true true) cov3).values 0 := by
  have hasc := (solved3_contract true true true).1
  refine ⟨hasc, ?_,
    (eigen_values_nonincreasing (fun _ => solved3 true true true) cov3 hasc).2 0 1 (by decide)⟩
  funext i
  fin_cases i <;> simp [eigen, reverse, solved3, Fin.rev]

theorem wcov_cov_entry {K : Type*} [LinearOrderedField K] {n p : Nat}
    (sqrt : K → K) (hsqrt : ∀ a : K, 0 ≤ a → sqrt a * sqrt a = a)
    (x : Matrix (Fin n) (Fin p) K) (w : Fin n → K)
    (hw : ∀ i, 0 ≤ w i) (hws : 0 < ∑ i, w i) (k l : Fin p) :
    (wcov sqrt x w).cov k l
      = ∑ i, (w i / ∑ t, w t) * ((x i k - (wcov sqrt x w).center k)
          * (x i l - (wcov sqrt x w).center l)) := by
  have hs : ∀ i, sqrt (w i / ∑ t, w t) * sqrt (w i / ∑ t, w t) = w i / ∑ t, w t :=
    fun i => hsqrt _ (div_nonneg (hw i) hws.le)
  rw [wcov_cov_apply]
  split <;>
  · refine Finset.sum_congr rfl fun i _ => ?_
    linear_combination
      ((x i k - (wcov sqrt x w).center k) * (x i l - (wcov sqrt x w).center l)) * hs i

theorem quad_form_sum {K : Type*} [CommRing K] {n p : Nat} (c : Fin n → K)
    (X : Matrix (Fin n) (Fin p) K) (v : Fin p → K) :
    Matrix.dotProduct v (Matrix.mulVec (fun k l => ∑ i, c i * (X i k * X i l)) v)
      = ∑ i, c i * (∑ k, v k * X i k) ^ 2 := by
  have hR : ∀ i, c i * (∑ k, v k * X i k) ^ 2
      = ∑ k, ∑ l, v k * (c i * (X i k * X i l) * v l) := by
    intro i
    rw [pow_two, Finset.sum_mul_sum, Finset.mul_sum]
    refine Finset.sum_congr rfl fun k _ => ?_
    rw [Finset.mul_sum]
    refine Finset.sum_congr rfl fun l _ => ?_
    ring
  have hL : Matrix.dotProduct v (Matrix.mulVec (fun k l => ∑ i, c i * (X i k * X i l)) v)
      = ∑ k, ∑ l, ∑ i, v k * (c i * (X i k * X i l) * v l) := by
    simp only [Matrix.dotProduct, Matrix.mulVec, Finset.mul_sum, Finset.sum_mul]
  rw [hL, Finset.sum_congr rfl fun i _ => hR i]
  rw [Finset.sum_comm (s := Finset.univ) (t := Finset.univ)
    (f := fun i k => ∑ l, v k * (c i * (X i k * X i l) * v l))]
  refine Finset.sum_congr rfl fun k _ => ?_
  rw [Finset.sum_comm]

theorem wcov_cov_comm {K : Type*} [Field K] {n p : Nat} (sqrt : K → K)
    (x : Matrix (Fin n) (Fin p) K) (w : Fin n → K) (i j : Fin p) :
    (wcov sqrt x w).cov i j = (wcov sqrt x w).cov j i := by
  simp only [wcov, selfadjointLowerToDense]
  rcases lt_trichotomy i j with hij | hij | hij
  · rw [if_neg (not_le.mpr hij), if_pos hij.le]
  · rw [hij]
  · rw [if_pos hij.le, if_neg (not_le.mpr hij)]

theorem wcov_squareCorners_cov :
    (wcov Real.sqrt (!![0, 0; 2, 0; 0, 2; 2, 2] : Matrix (Fin 4) (Fin 2) ℝ) (fun _ => 1)).cov
      = 1 := by
  ext k l
  rw [wcov_cov_entry Real.sqrt (fun a => Real.mul_self_sqrt) _ _ (fun _ => zero_le_one)
    (by norm_num) k l]
  fin_cases k <;> fin_cases l <;>
    simp [wcov_center_apply, Fin.sum_univ_four, Matrix.vecHead, Matrix.vecTail] <;> norm_num

/-! ## `wcov`: positive semi-definiteness -/

/-- C13. With non-negative weights of positive sum, the covariance returned by `wcov` is positive
semi-definite in exact arithmetic: for every vector `v`, `vᵀ · cov · v` is the weighted sum of
the squares `(∑ k, v k * (x i k - center k))²` with weights `w i / ws`, hence `≥ 0`. -/
theorem wcov_cov_posSemidef {K : Type*} [LinearOrderedField K] {n p : Nat}
    (sqrt : K → K) (hsqrt : ∀ a : K, 0 ≤ a → sqrt a * sqrt a = a)
    (x : Matrix (Fin n) (Fin p) K) (w : Fin n → K)
    (hw : ∀ i, 0 ≤ w i) (hws : 0 < ∑ i, w i) (v : Fin p → K) :
    Matrix.dotProduct v ((wcov sqrt x w).cov.mulVec v)
      = ∑ i, (w i / ∑ t, w t) * (∑ k, v k * (x i k - (wcov sqrt x w).center k)) ^ 2 ∧
    0 ≤ Matrix.dotProduct v ((wcov sqrt x w).cov.mulVec v) := by
  have hcov : (wcov sqrt x w).cov
      = fun k l => ∑ i, (w i / ∑ t, w t) * ((x i k - (wcov sqrt x w).center k)
          * (x i l - (wcov sqrt x w).center l)) := by
    funext k l
    exact wcov_cov_entry sqrt hsqrt x w hw hws k l
  have heq : Matrix.dotProduct v ((wcov sqrt x w).cov.mulVec v)
      = ∑ i, (w i / ∑ t, w t) * (∑ k, v k * (x i k - (wcov sqrt x w).center k)) ^ 2 := by
    rw [hcov]
    exact quad_form_sum (fun i => w i / ∑ t, w t)
      (fun i k => x i k - (∑ s, x s k * w s) / ∑ s, w s) v
  refine ⟨heq, ?_⟩
  rw [heq]
  exact Finset.sum_nonneg fun i _ => mul_nonneg (div_nonneg (hw i) hws.le) (sq_nonneg _)

theorem Mahalanobis_eq_dot {K : Type*} [Field K] {n p : Nat}
    (inverse : Matrix (Fin p) (Fin p) K → Matrix (Fin p) (Fin p) K)
    (x : Matrix (Fin n) (Fin p) K) (center : Fin p → K) (cov : Matrix (Fin p) (Fin p) K)
    (i : Fin n) (j : Fin 1) :
    Mahalanobis inverse x center cov i j
      = Matrix.dotProduct (fun k => x i k - center k)
          ((inverse cov).mulVec (fun k => x i k - center k)) := by
  rw [Mahalanobis_apply]
  simp only [Matrix.dotProduct, Matrix.mulVec, Finset.mul_sum, Finset.sum_mul]
  rw [Finset.sum_comm]
  refine Finset.sum_congr rfl fun l _ => Finset.sum_congr rfl fun k _ => ?_
  ring

/-! ## `Mahalanobis`: sign and special cases -/

/-- C14. For an invertible, positive semi-definite `cov` (`vᵀ · cov · v ≥ 0` for every `v`;
symmetry is not needed), every entry of the result of `Mahalanobis` is `≥ 0` in exact
arithmetic. -/
theorem Mahalanobis_nonneg {K : Type*} [LinearOrderedField K] {n p : Nat}
    (inverse : Matrix (Fin p) (Fin p) K → Matrix (Fin p) (Fin p) K)
    (hinv : InverseContract inverse)
    (x : Matrix (Fin n) (Fin p) K) (center : Fin p → K) (cov : Matrix (Fin p) (Fin p) K)
    (hcov : IsUnit cov.det)
    (hpsd : ∀ v : Fin p → K, 0 ≤ Matrix.dotProduct v (cov.mulVec v))
    (i : Fin n) (j : Fin 1) :
    0 ≤ Mahalanobis inverse x center cov i j := by
  rw [Mahalanobis_eq_dot]
  set y : Fin p → K := fun k => x i k - center k with hy
  set z : Fin p → K := (inverse cov).mulVec y with hz
  have hyz : y = cov.mulVec z := by
    rw [hz, Matrix.mulVec_mulVec, hinv cov hcov, Matrix.one_mulVec]
  have h := hpsd z
  rw [Matrix.dotProduct_comm, ← hyz] at h
  exact h

/-- C15. When the eigenvector matrix of the solver is orthogonal, the eigenvectors returned by
`eigen` are orthonormal: `vectorsᵀ · vectors` is the identity. -/
theorem eigen_vectors_orthonormal {K : Type*} [LinearOrderedField K] {p : Nat}
    (solver : Matrix (Fin p) (Fin p) K → SelfAdjointEigenSolver p K)
    (cov : Matrix (Fin p) (Fin p) K)
    (hV : (solver cov).eigenvectors.transpose * (solver cov).eigenvectors = 1) :
    (eigen solver cov).vectors.transpose * (eigen solver cov).vectors = 1 := by
  have hV2 : (solver cov).eigenvectors * (solver cov).eigenvectors.transpose = 1 :=
    Matrix.mul_eq_one_comm.mp hV
  ext a b
  have h := congrFun (congrFun hV2 (Fin.rev a)) (Fin.rev b)
  simp only [Matrix.mul_apply, Matrix.transpose_apply, Matrix.one_apply] at h
  simp only [Matrix.mul_apply, Matrix.transpose_apply, eigen_vectors_apply, neg_mul_neg,
    Matrix.one_apply]
  rw [h]
  simp [Fin.rev_inj]

/-- C16. With `cov` the identity and `center` the zero vector, `Mahalanobis` returns for every
row `i` the squared Euclidean norm `∑ k, x i k ^ 2`. -/
theorem Mahalanobis_identity_zero_center {K : Type*} [Field K] {n p : Nat}
    (inverse : Matrix (Fin p) (Fin p) K → Matrix (Fin p) (Fin p) K)
    (hinv : InverseContract inverse) (x : Matrix (Fin n) (Fin p) K)
    (i : Fin n) (j : Fin 1) :
    Mahalanobis inverse x 0 1 i j = ∑ k, x i k ^ 2 := by
  have h1 : inverse (1 : Matrix (Fin p) (Fin p) K) = 1 := by
    have := hinv 1 (by simp)
    rwa [Matrix.one_mul] at this
  rw [Mahalanobis_apply, h1]
  refine Finset.sum_congr rfl fun k _ => ?_
  simp [Matrix.one_apply, pow_two]

/-! ## `wcov` and `Mahalanobis` together -/

/-- C18. With non-negative weights of positive sum and an invertible covariance
`cov = (wcov x w).cov`, the distances of the rows of `x` to `(wcov x w).center` under `cov` have
weighted mean `p` in exact arithmetic: `∑ i, w i * d i = p * ∑ i, w i`. -/
theorem weighted_mean_Mahalanobis_eq_dim {K : Type*} [LinearOrderedField K] {n p : Nat}
    (sqrt : K → K) (hsqrt : ∀ a : K, 0 ≤ a → sqrt a * sqrt a = a)
    (inverse : Matrix (Fin p) (Fin p) K → Matrix (Fin p) (Fin p) K)
    (hinv : InverseContract inverse)
    (x : Matrix (Fin n) (Fin p) K) (w : Fin n → K)
    (hw : ∀ i, 0 ≤ w i) (hws : 0 < ∑ i, w i)
    (hcov : IsUnit (wcov sqrt x w).cov.det) :
    ∑ i, w i * Mahalanobis inverse x (wcov sqrt x w).center (wcov sqrt x w).cov i 0
      = (p : K) * ∑ i, w i := by
  set C := (wcov sqrt x w).cov with hC
  set m := (wcov sqrt x w).center with hm
  set B := inverse C with hB
  have hws0 : (∑ i, w i) ≠ 0 := ne_of_gt hws
  have hCB : C * B = 1 := hinv C hcov
  have hBC : B * C = 1 := Matrix.mul_eq_one_comm.mp hCB
  have hsym : ∀ k l, C k l = C l k := fun k l => wcov_cov_comm sqrt x w k l
  have hent : ∀ l k, ∑ i, w i * ((x i l - m l) * (x i k - m k)) = (∑ i, w i) * C l k := by
    intro l k
    rw [hC, wcov_cov_entry sqrt hsqrt x w hw hws l k, Finset.mul_sum]
    refine Finset.sum_congr rfl fun i _ => ?_
    field_simp
  have hdiag : ∀ l, ∑ k, B l k * C k l = 1 := by
    intro l
    rw [← Matrix.mul_apply, hBC, Matrix.one_apply_eq]
  calc ∑ i, w i * Mahalanobis inverse x m C i 0
      = ∑ i, ∑ k, ∑ l, B l k * (w i * ((x i l - m l) * (x i k - m k))) := by
        refine Finset.sum_congr rfl fun i _ => ?_
        rw [Mahalanobis_apply, Finset.mul_sum]
        refine Finset.sum_congr rfl fun k _ => ?_
        rw [Finset.sum_mul, Finset.mul_sum]
        refine Finset.sum_congr rfl fun l _ => ?_
        ring
    _ = ∑ k, ∑ l, B l k * ∑ i, w i * ((x i l - m l) * (x i k - m k)) := by
        rw [Finset.sum_comm]
        refine Finset.sum_congr rfl fun k _ => ?_
        rw [Finset.sum_comm]
        refine Finset.sum_congr rfl fun l _ => ?_
        rw [Finset.mul_sum]
    _ = ∑ k, ∑ l, (∑ i, w i) * (B l k * C k l) := by
        refine Finset.sum_congr rfl fun k _ => Finset.sum_congr rfl fun l _ => ?_
        rw [hent, hsym l k]
        ring
    _ = (∑ i, w i) * ∑ l, ∑ k, B l k * C k l := by
        rw [Finset.sum_comm, Finset.mul_sum]
        refine Finset.sum_congr rfl fun l _ => ?_
        rw [Finset.mul_sum]
    _ = (p : K) * ∑ i, w i := by
        simp [hdiag, mul_comm]

/-- C19. Rescaling the weights by `c > 0` changes neither the center nor the covariance
returned by `wcov`, in exact arithmetic (the sign conditions on `w` are not needed). -/
theorem wcov_scale_invariant {K : Type*} [LinearOrderedField K] {n p : Nat}
    (sqrt : K → K) (x : Matrix (Fin n) (Fin p) K) (w : Fin n → K) (c : K) (hc : 0 < c) :
    (wcov sqrt x (fun i => c * w i)).center = (wcov sqrt x w).center ∧
    (wcov sqrt x (fun i => c * w i)).cov = (wcov sqrt x w).cov := by
  have hc0 : c ≠ 0 := ne_of_gt hc
  have hsum : ∑ i, c * w i = c * ∑ i, w i := (Finset.mul_sum _ _ _).symm
  have hsq : ∀ i, c * w i / ∑ t, c * w t = w i / ∑ t, w t := by
    intro i
    rw [hsum, mul_div_mul_left _ _ hc0]
  have hcen : ∀ k, (∑ i, x i k * (c * w i)) / ∑ t, c * w t = (∑ i, x i k * w i) / ∑ t, w t := by
    intro k
    have : ∑ i, x i k * (c * w i) = c * ∑ i, x i k * w i := by
      rw [Finset.mul_sum]
      exact Finset.sum_congr rfl fun i _ => by ring
    rw [this, hsum, mul_div_mul_left _ _ hc0]
  constructor
  · funext k
    exact hcen k
  · simp only [wcov, hsq, hcen]

/-! ## `as_dist`: bounds of the reads and writes -/

theorem colStart_le_succ (nrow j : Nat) : colStart nrow j ≤ colStart nrow (j + 1) := by
  rw [colStart_succ]; omega

theorem colStart_mono (nrow : Nat) {a b : Nat} (h : a ≤ b) : colStart nrow a ≤ colStart nrow b := by
  induction h with
  | refl => exact le_rfl
  | step _ ih => exact le_trans ih (colStart_le_succ nrow _)

theorem colStart_of_ge (nrow : Nat) {j : Nat} (h : nrow ≤ j) : colStart nrow j = colStart nrow nrow := by
  induction h with
  | refl => rfl
  | @step b hb ih =>
    have hb2 : nrow ≤ b := hb
    rw [colStart_succ, ih]
    omega

theorem colStart_le (nrow ncol : Nat) : colStart nrow ncol ≤ nrow * (nrow - 1) / 2 := by
  rw [← colStart_self]
  rcases Nat.le_total ncol nrow with h | h
  · exact colStart_mono nrow h
  · rw [colStart_of_ge nrow h]

theorem colStart_min (nrow ncol : Nat) : colStart nrow (min ncol nrow) = colStart nrow ncol := by
  rcases Nat.le_total ncol nrow with h | h
  · rw [Nat.min_eq_left h]
  · rw [Nat.min_eq_right h, colStart_of_ge nrow h]

theorem colStart_eq_finset_sum (nrow : Nat) : ∀ m : Nat,
    colStart nrow m = ∑ j in Finset.range m, (nrow - 1 - j) := by
  intro m
  induction m with
  | zero => simp [colStart]
  | succ m ih =>
    rw [colStart_succ, Finset.sum_range_succ, ih]
    omega

theorem colStart_eq_sum (nrow ncol : Nat) :
    colStart nrow ncol = ∑ j in Finset.range (min ncol nrow), (nrow - 1 - j) := by
  rw [← colStart_min, colStart_eq_finset_sum]

/-- Within the `int` range, that is for `nrow * (nrow - 1) < 2^31`, and for every number of
columns: `as_dist` returns, so every write `out[k++]` had `k` below the allocated length and
every read `mat(i,j)` had `i < nrow` and `j < ncol`; the number of writes is
`∑ j < min ncol nrow, (nrow - 1 - j)`, at most `nrow(nrow-1)/2`, and the tail of the output
that is not written stays zero. -/
theorem as_dist_safe_of_fits {α : Type*} [Zero α] {nrow ncol : Nat}
    (mat : Matrix (Fin nrow) (Fin ncol) α) (h : nrow * (nrow - 1) < 2 ^ 31) :
    as_dist mat = Except.ok
      { data := (as_dist_cells nrow ncol).map (cellOr mat)
          ++ List.replicate (nrow * (nrow - 1) / 2 - (as_dist_cells nrow ncol).length) 0
        Size := nrow, Diag := false, Upper := false } ∧
    (as_dist_cells nrow ncol).length = ∑ j in Finset.range (min ncol nrow), (nrow - 1 - j) ∧
    (as_dist_cells nrow ncol).length ≤ nrow * (nrow - 1) / 2 ∧
    (∀ c ∈ as_dist_cells nrow ncol, c.1 < nrow ∧ c.2 < ncol) := by
  have hs := as_dist_size_eq h
  have hle : (as_dist_cells nrow ncol).length ≤ nrow * (nrow - 1) / 2 := by
    rw [as_dist_cells_length]; exact colStart_le nrow ncol
  refine ⟨?_, by rw [as_dist_cells_length, colStart_eq_sum], hle, fun c hc => ?_⟩
  · rw [as_dist_eq, hs, if_neg (by omega), Int.toNat_ofNat, if_pos hle]
  · have := mem_as_dist_cells.mp hc
    exact ⟨this.2.2, this.1⟩

/-- C20 (evaluation at a failing input). For the `65537 × 1` zero matrix the `int` product
`nrow * (nrow - 1) = 4295032832` wraps to `65536`, so `size = 32768` entries are allocated,
while the loops visit the `65536` cells below the diagonal of column `0`: the write number
`32768` is outside of the allocated vector. -/
theorem as_dist_write_out_of_bounds :
    as_dist_size 65537 = 32768 ∧
    (as_dist_cells 65537 1).length = 65536 ∧
    as_dist (0 : Matrix (Fin 65537) (Fin 1) ℚ) = Except.error Fault.outOfBounds := by
  have hs : as_dist_size 65537 = 32768 := by decide
  have hl : (as_dist_cells 65537 1).length = 65536 := by
    rw [as_dist_cells_length]; rfl
  refine ⟨hs, hl, ?_⟩
  rw [as_dist_eq, hs, hl, if_neg (by decide), if_neg (by decide)]


/-- Witness for C13: the four corners of a square with unit weights and `v = (1, -1)`. -/
theorem wcov_cov_posSemidef_witness :
    (∀ a : ℝ, 0 ≤ a → Real.sqrt a * Real.sqrt a = a) ∧
    (∀ i : Fin 4, (0 : ℝ) ≤ (fun _ => 1 : Fin 4 → ℝ) i) ∧
    (0 : ℝ) < ∑ i : Fin 4, (fun _ => 1 : Fin 4 → ℝ) i ∧
    0 ≤ Matrix.dotProduct ![1, -1]
      ((wcov Real.sqrt (!![0, 0; 2, 0; 0, 2; 2, 2] : Matrix (Fin 4) (Fin 2) ℝ)
        (fun _ => 1)).cov.mulVec ![1, -1]) := by
  have h1 : ∀ a : ℝ, 0 ≤ a → Real.sqrt a * Real.sqrt a = a := fun a => Real.mul_self_sqrt
  have h2 : ∀ i : Fin 4, (0 : ℝ) ≤ (fun _ => 1 : Fin 4 → ℝ) i := fun _ => zero_le_one
  have h3 : (0 : ℝ) < ∑ i : Fin 4, (fun _ => 1 : Fin 4 → ℝ) i := by norm_num
  exact ⟨h1, h2, h3, (wcov_cov_posSemidef Real.sqrt h1 _ _ h2 h3 ![1, -1]).2⟩

/-- Witness for C14: the identity as covariance. -/
theorem Mahalanobis_nonneg_witness :
    InverseContract (cofactorInverse : Matrix (Fin 2) (Fin 2) ℚ → _) ∧
    IsUnit (1 : Matrix (Fin 2) (Fin 2) ℚ).det ∧
    (∀ v : Fin 2 → ℚ, 0 ≤ Matrix.dotProduct v ((1 : Matrix (Fin 2) (Fin 2) ℚ).mulVec v)) ∧
    ∀ (i : Fin 2) (j : Fin 1),
      0 ≤ Mahalanobis cofactorInverse (!![1, 1; 3, 1] : Matrix (Fin 2) (Fin 2) ℚ) ![1, 1] 1 i j := by
  have h1 : IsUnit (1 : Matrix (Fin 2) (Fin 2) ℚ).det := by simp
  have h2 : ∀ v : Fin 2 → ℚ,
      0 ≤ Matrix.dotProduct v ((1 : Matrix (Fin 2) (Fin 2) ℚ).mulVec v) := by
    intro v
    rw [Matrix.one_mulVec]
    exact Finset.sum_nonneg fun k _ => mul_self_nonneg (v k)
  exact ⟨cofactorInverse_contract, h1, h2, fun i j =>
    Mahalanobis_nonneg cofactorInverse cofactorInverse_contract _ _ 1 h1 h2 i j⟩

/-- Witness for C15 (the scenario of the specification): on the `2 × 2` identity a solver
answers with the eigenvalues `1, 1` and the identity as eigenvectors; `eigen` returns
`values = [1, 1]` and orthonormal vectors. -/
theorem eigen_vectors_orthonormal_witness :
    (1 : Matrix (Fin 2) (Fin 2) ℚ).transpose * (1 : Matrix (Fin 2) (Fin 2) ℚ) = 1 ∧
    (eigen (fun _ => (⟨![1, 1], 1⟩ : SelfAdjointEigenSolver 2 ℚ)) 1).values = ![1, 1] ∧
    (eigen (fun _ => (⟨![1, 1], 1⟩ : SelfAdjointEigenSolver 2 ℚ)) 1).vectors.transpose
      * (eigen (fun _ => (⟨![1, 1], 1⟩ : SelfAdjointEigenSolver 2 ℚ)) 1).vectors = 1 := by
  have h1 : (1 : Matrix (Fin 2) (Fin 2) ℚ).transpose * (1 : Matrix (Fin 2) (Fin 2) ℚ) = 1 := by
    simp
  refine ⟨h1, ?_,
    eigen_vectors_orthonormal (fun _ => (⟨![1, 1], 1⟩ : SelfAdjointEigenSolver 2 ℚ)) 1 h1⟩
  funext i
  fin_cases i <;> simp [eigen, reverse, Fin.rev]

/-- Witness for C16: the row `(3, 4)` has squared norm `25`. -/
theorem Mahalanobis_identity_zero_center_witness :
    InverseContract (cofactorInverse : Matrix (Fin 2) (Fin 2) ℚ → _) ∧
    Mahalanobis cofactorInverse (!![3, 4] : Matrix (Fin 1) (Fin 2) ℚ) 0 1 0 0 = 25 := by
  refine ⟨cofactorInverse_contract, ?_⟩
  rw [Mahalanobis_identity_zero_center cofactorInverse cofactorInverse_contract]
  simp [Fin.sum_univ_two]
  norm_num

/-! ## `wcov` with a weight vector of another length -/

/-- C17 (counterexample). With three observations and two weights the call of `wcov` does not
fail with `DimensionMismatch`: nothing is checked and nothing is raised. -/
theorem wcov_mismatch_no_error :
    wcov_sized Real.sqrt (!![1, 2; 3, 4; 5, 6] : Matrix (Fin 3) (Fin 2) ℝ) (![1, 1] : Fin 2 → ℝ)
      ≠ Outcome.raised NumericError.DimensionMismatch ∧
    wcov_sized Real.sqrt (!![1, 2; 3, 4; 5, 6] : Matrix (Fin 3) (Fin 2) ℝ) (![1, 1] : Fin 2 → ℝ)
      = Outcome.unspecified := by
  simp [wcov_sized]

/-- C17 (amended). For every `n × p` matrix `x` and every weight vector `w` whose length differs
from `n`, `wcov` performs no check of the lengths and raises no error; the result of the
evaluation on the inconsistent operands is unspecified. -/
theorem wcov_mismatch_unchecked {K : Type*} [Field K] {n m p : Nat} (sqrt : K → K)
    (x : Matrix (Fin n) (Fin p) K) (w : Fin m → K) (h : m ≠ n) :
    wcov_sized sqrt x w = Outcome.unspecified ∧
    ∀ e : NumericError, wcov_sized sqrt x w ≠ Outcome.raised e := by
  have h1 : wcov_sized sqrt x w = Outcome.unspecified := by simp [wcov_sized, h]
  refine ⟨h1, fun e he => ?_⟩
  rw [h1] at he
  cases he

/-- Witness for the amended C17: three observations, two weights. -/
theorem wcov_mismatch_unchecked_witness :
    (2 : Nat) ≠ 3 ∧
    wcov_sized Real.sqrt (!![1, 2; 3, 4; 5, 6] : Matrix (Fin 3) (Fin 2) ℝ) (![1, 1] : Fin 2 → ℝ)
      = Outcome.unspecified :=
  ⟨by decide, (wcov_mismatch_unchecked Real.sqrt _ _ (by decide)).1⟩

theorem wcov_sized_eq_wcov {K : Type*} [Field K] {n p : Nat} (sqrt : K → K)
    (x : Matrix (Fin n) (Fin p) K) (w : Fin n → K) :
    wcov_sized sqrt x w = Outcome.value (wcov sqrt x w) := by
  simp [wcov_sized]

/-- Witness for C18: for the four corners of a square with unit weights, `p = 2` and the
weighted sum of the four distances is `2 · 4 = 8`. -/
theorem weighted_mean_Mahalanobis_eq_dim_witness :
    (∀ a : ℝ, 0 ≤ a → Real.sqrt a * Real.sqrt a = a) ∧
    InverseContract (cofactorInverse : Matrix (Fin 2) (Fin 2) ℝ → _) ∧
    (∀ i : Fin 4, (0 : ℝ) ≤ (fun _ => 1 : Fin 4 → ℝ) i) ∧
    (0 : ℝ) < ∑ i : Fin 4, (fun _ => 1 : Fin 4 → ℝ) i ∧
    IsUnit (wcov Real.sqrt (!![0, 0; 2, 0; 0, 2; 2, 2] : Matrix (Fin 4) (Fin 2) ℝ)
      (fun _ => 1)).cov.det ∧
    ∑ i : Fin 4, (1 : ℝ) * Mahalanobis cofactorInverse
        (!![0, 0; 2, 0; 0, 2; 2, 2] : Matrix (Fin 4) (Fin 2) ℝ)
        (wcov Real.sqrt (!![0, 0; 2, 0; 0, 2; 2, 2] : Matrix (Fin 4) (Fin 2) ℝ)
          (fun _ => 1)).center
        (wcov Real.sqrt (!![0, 0; 2, 0; 0, 2; 2, 2] : Matrix (Fin 4) (Fin 2) ℝ)
          (fun _ => 1)).cov i 0
      = 8 := by
  have h1 : ∀ a : ℝ, 0 ≤ a → Real.sqrt a * Real.sqrt a = a := fun a => Real.mul_self_sqrt
  have h2 : ∀ i : Fin 4, (0 : ℝ) ≤ (fun _ => 1 : Fin 4 → ℝ) i := fun _ => zero_le_one
  have h3 : (0 : ℝ) < ∑ i : Fin 4, (fun _ => 1 : Fin 4 → ℝ) i := by norm_num
  have h4 : IsUnit (wcov Real.sqrt (!![0, 0; 2, 0; 0, 2; 2, 2] : Matrix (Fin 4) (Fin 2) ℝ)
      (fun _ => 1)).cov.det := by
    rw [wcov_squareCorners_cov]; simp
  refine ⟨h1, cofactorInverse_contract, h2, h3, h4, ?_⟩
  rw [weighted_mean_Mahalanobis_eq_dim Real.sqrt h1 cofactorInverse cofactorInverse_contract
    _ _ h2 h3 h4]
  norm_num

/-- Witness for C19: doubling the unit weights of the four corners of a square. -/
theorem wcov_scale_invariant_witness :
    (0 : ℝ) < 2 ∧
    (wcov Real.sqrt (!![0, 0; 2, 0; 0, 2; 2, 2] : Matrix (Fin 4) (Fin 2) ℝ)
        (fun i => 2 * (fun _ => 1 : Fin 4 → ℝ) i)).center
      = (wcov Real.sqrt (!![0, 0; 2, 0; 0, 2; 2, 2] : Matrix (Fin 4) (Fin 2) ℝ)
          (fun _ => 1)).center ∧
    (wcov Real.sqrt (!![0, 0; 2, 0; 0, 2; 2, 2] : Matrix (Fin 4) (Fin 2) ℝ)
        (fun i => 2 * (fun _ => 1 : Fin 4 → ℝ) i)).cov
      = (wcov Real.sqrt (!![0, 0; 2, 0; 0, 2; 2, 2] : Matrix (Fin 4) (Fin 2) ℝ)
          (fun _ => 1)).cov :=
  ⟨by norm_num, wcov_scale_invariant Real.sqrt _ _ 2 (by norm_num)⟩

end Gravitree
